import Mathlib

/-!
Verification development for the blog-crawler repository.

The repository contains two variants of a blog scraping pipeline:
a CLI variant (`scraper.ts`: `BlogScraper.extractSections`,
`BlogScraper.prepareForAI`, `BlogScraper.scrapePepperCloudBlog`,
`BlogScraper.getRecentBlogUrls`, `BlogScraper.isUrlScraped`, and
`generator.ts`: `BlogGenerator.cleanFilename`) and a Cloudflare Worker
variant (`BlogScraper.parseContent`, `BlogScraper.calculateWordCount`,
`BlogScraper.generateCleanFilename`, `BlogScraper.getRecentPosts`,
`BlogGenerator.prepareForOpenAI`, `BlogCrawlerWorker.run`).

The embedding below models the DOM as a tree of element/text nodes
(cheerio is an external HTML parsing collaborator; `.find(selector)`
is modelled as a pre-order walk over descendants, `.text()` as the
concatenation of all descendant text).  JavaScript strings are modelled
as Lean strings; `String.prototype.trim` and the `\s` regex class are
modelled by the predicate `isJsWs` covering the ASCII whitespace
characters.  Note: in the CLI sources the regexes and newline escapes
are stored with doubled backslashes (a storage escaping artifact);
they denote the usual `\s` class and `\n` newline, as in the worker
sources, and are modelled as such.
-/

/-- JavaScript whitespace (the `\s` class / `String.prototype.trim`),
restricted to the ASCII whitespace characters. -/
def isJsWs (c : Char) : Bool :=
  c == ' ' || c == '\t' || c == '\n' || c == '\r' || c == '\x0b' || c == '\x0c'

/-- `String.prototype.trim` on a character list. -/
def jsTrimList (l : List Char) : List Char :=
  ((l.dropWhile isJsWs).reverse.dropWhile isJsWs).reverse

/-- `String.prototype.trim`. -/
def jsTrim (s : String) : String :=
  (jsTrimList s.toList).asString

/-- A DOM node: an element with a tag and children, or a text node.
The HTML parse itself (cheerio) is an external collaborator; extraction
operates on the parsed tree. -/
inductive HNode where
  | elem (tag : String) (children : List HNode)
  | textN (s : String)

mutual

/-- `$(element).text()`: concatenation of all descendant text, in
document order. -/
def nodeText : HNode → String
  | .textN s => s
  | .elem _ cs => forestText cs

/-- Text of a list of sibling nodes, in order. -/
def forestText : List HNode → String
  | [] => ""
  | n :: ns => nodeText n ++ forestText ns

end

mutual

/-- Helper for `find`: matching elements of the subtree rooted at a
node, the node itself included, in document (pre-)order. -/
def nodeFind (tags : List String) : HNode → List HNode
  | .textN _ => []
  | .elem t cs => (if tags.contains t then [HNode.elem t cs] else []) ++ forestFind tags cs

/-- Matching elements of a forest, in document (pre-)order. -/
def forestFind (tags : List String) : List HNode → List HNode
  | [] => []
  | n :: ns => nodeFind tags n ++ forestFind tags ns

end

/-- `$(element).find(sel)`: matching proper descendants of a node. -/
def findDescendants (tags : List String) : HNode → List HNode
  | .textN _ => []
  | .elem _ cs => forestFind tags cs

/-- The tag of an element node (text nodes have none). -/
def tagOf : HNode → String
  | .elem t _ => t
  | .textN _ => ""

/-- The selector used by both extraction variants:
`'p, h1, h2, h3, h4, h5, h6, ul, ol'`. -/
def contentTags : List String :=
  ["p", "h1", "h2", "h3", "h4", "h5", "h6", "ul", "ol"]

/-- A content item: `{type:'paragraph', text}` or `{type:'list', items}`. -/
inductive ContentItem where
  | paragraph (text : String)
  | list (items : List String)
deriving DecidableEq, Repr

/-- The `type` discriminant of a `ContentSection`:
`'intro'` or `'section_h<level>'`. -/
inductive SectionType where
  | intro
  | sectionH (level : Nat)
deriving DecidableEq, Repr

/-- A `ContentSection` as in the source interfaces: a discriminant,
an optional heading, and an ordered content list. -/
structure ContentSection where
  type : SectionType
  heading : Option String := none
  content : List ContentItem
deriving DecidableEq, Repr

/-- `parseInt(tagName.charAt(1))` for a heading tag `h1`..`h6`. -/
def headingLevel (tag : String) : Nat :=
  ((tag.toList.drop 1).headD '0').toNat - '0'.toNat

/-- `tagName.startsWith("h")`. -/
def tagIsHeading (tag : String) : Bool :=
  match tag.toList with
  | 'h' :: _ => true
  | _ => false

/-- The mutable `(sections, currentSection)` accumulator used by both
extraction loops. -/
structure ExtractAcc where
  sections : List ContentSection
  current : ContentSection

/-- `$element.find('li')` item collection shared by both variants:
trimmed text of each descendant list item, empty items dropped. -/
def listItemsOf (node : HNode) : List String :=
  ((findDescendants ["li"] node).map (fun li => jsTrim (nodeText li))).filter
    (fun s => s ≠ "")

/-- One iteration of the `.each` callback of `BlogScraper.extractSections`
(CLI variant, `scraper.ts`): skip nodes with empty trimmed text; on a
heading, flush the current section if its content is non-empty and start
a new one; on a list, push a `list` item only when at least one list
item survives; otherwise push a `paragraph`. -/
def processNode1 (acc : ExtractAcc) (node : HNode) : ExtractAcc :=
  let text := jsTrim (nodeText node)
  if text = "" then acc
  else
    let tag := tagOf node
    if tagIsHeading tag then
      let done := if acc.current.content.length > 0 then acc.sections ++ [acc.current]
                  else acc.sections
      { sections := done,
        current := { type := .sectionH (headingLevel tag), heading := some text,
                     content := [] } }
    else if tag = "ul" ∨ tag = "ol" then
      let listItems := listItemsOf node
      if listItems.length > 0 then
        { acc with current :=
            { acc.current with content := acc.current.content ++ [.list listItems] } }
      else acc
    else
      { acc with current :=
          { acc.current with content := acc.current.content ++ [.paragraph text] } }

/-- `BlogScraper.extractSections` (CLI variant): walk the matching
descendants of the content root, then flush the last section if its
content is non-empty. -/
def extractSections (blogContent : HNode) : List ContentSection :=
  let final := (findDescendants contentTags blogContent).foldl processNode1
    { sections := [], current := { type := .intro, content := [] } }
  if final.current.content.length > 0 then final.sections ++ [final.current]
  else final.sections

/-- One iteration of the `.each` callback of `BlogScraper.parseContent`
(worker variant, `BlogScraper.ts`): identical to the CLI variant except
that a `list` item is pushed unconditionally, even when every list item
trimmed to empty. -/
def processNode5 (acc : ExtractAcc) (node : HNode) : ExtractAcc :=
  let text := jsTrim (nodeText node)
  if text = "" then acc
  else
    let tag := tagOf node
    if tagIsHeading tag then
      let done := if acc.current.content.length > 0 then acc.sections ++ [acc.current]
                  else acc.sections
      { sections := done,
        current := { type := .sectionH (headingLevel tag), heading := some text,
                     content := [] } }
    else if tag = "ul" ∨ tag = "ol" then
      { acc with current :=
          { acc.current with content := acc.current.content ++ [.list (listItemsOf node)] } }
    else
      { acc with current :=
          { acc.current with content := acc.current.content ++ [.paragraph text] } }

/-- `BlogScraper.parseContent` (worker variant). -/
def parseContent (blogContent : HNode) : List ContentSection :=
  let final := (findDescendants contentTags blogContent).foldl processNode5
    { sections := [], current := { type := .intro, content := [] } }
  if final.current.content.length > 0 then final.sections ++ [final.current]
  else final.sections

/-- The content root of the scenario in the specification:
`<section><h2>Intro Heading</h2><p>Hello world</p><h2>Next</h2><ul><li>A</li><li></li><li>B</li></ul></section>`. -/
def scenarioRoot : HNode :=
  .elem "section"
    [ .elem "h2" [.textN "Intro Heading"],
      .elem "p" [.textN "Hello world"],
      .elem "h2" [.textN "Next"],
      .elem "ul" [.elem "li" [.textN "A"], .elem "li" [], .elem "li" [.textN "B"]] ]

/-- The scraped data handed to the prompt formatters: title, description,
category, sections and source url (the `description?` optional field is
modelled as a string, the empty string standing for an absent/falsy
description exactly as JavaScript truthiness treats it). -/
structure ScrapedData where
  title : String
  description : String
  category : String
  sections : List ContentSection
  url : String

/-- `Array.prototype.join("\n")`. -/
def joinLines : List String → String
  | [] => ""
  | [x] => x
  | x :: xs => x ++ "\n" ++ joinLines xs

/-- The header lines of `BlogScraper.prepareForAI` (CLI variant):
`[Title, Description?, Category, ""].filter(Boolean)`. -/
def headerLines (d : ScrapedData) : List String :=
  (["Title: " ++ d.title,
    if d.description ≠ "" then "Description: " ++ d.description else "",
    "Category: " ++ d.category,
    ""]).filter (fun s => s ≠ "")

/-- The lines pushed for one section by the loop of
`BlogScraper.prepareForAI` (CLI variant): for an intro section the
literal `Introduction:` line then one `- <text>` line per non-empty
paragraph (lists ignored); for a heading section the heading preceded by
a newline (when the heading is truthy), then `- <text>` per non-empty
paragraph and `List items:` followed by `  • <item>` lines per list. -/
def sectionLines (s : ContentSection) : List String :=
  match s.type with
  | .intro =>
    "Introduction:" :: s.content.flatMap (fun c =>
      match c with
      | .paragraph t => if t = "" then [] else ["- " ++ t]
      | .list _ => [])
  | .sectionH _ =>
    (match s.heading with
     | some h => if h = "" then [] else ["\n" ++ h]
     | none => []) ++
    s.content.flatMap (fun c =>
      match c with
      | .paragraph t => if t = "" then [] else ["- " ++ t]
      | .list items => "List items:" :: items.map (fun i => "  • " ++ i))

/-- `BlogScraper.prepareForAI` (CLI variant): the header lines, the
per-section lines in section order, joined by newlines. -/
def prepareForAI (d : ScrapedData) : String :=
  joinLines (headerLines d ++ d.sections.flatMap sectionLines)

/-- The lines pushed for one section by the loop of
`BlogGenerator.prepareForOpenAI` (worker variant): intro sections
contribute the `Introduction:` line and their non-empty paragraphs; any
other (heading) section contributes nothing at all. -/
def introLines (s : ContentSection) : List String :=
  match s.type with
  | .intro =>
    "Introduction:" :: s.content.flatMap (fun c =>
      match c with
      | .paragraph t => if t = "" then [] else ["- " ++ t]
      | .list _ => [])
  | .sectionH _ => []

/-- `BlogGenerator.prepareForOpenAI` (worker variant): a single header
string followed by the intro-section lines only, joined by newlines. -/
def prepareForOpenAI (d : ScrapedData) : String :=
  joinLines
    (("Title: " ++ d.title ++ "\nDescription: " ++ d.description ++
      "\nCategory: " ++ d.category ++ "\n\n")
      :: d.sections.flatMap introLines)

mutual

/-- `str.split(/\s+/)` on a character list: `splitWsAux l acc` splits
`l` given that `acc` holds the (reversed) characters of the piece read
so far. -/
def splitWsAux : List Char → List Char → List (List Char)
  | [], acc => [acc.reverse]
  | c :: cs, acc =>
    if isJsWs c then acc.reverse :: splitWsSkip cs else splitWsAux cs (c :: acc)

/-- `splitWsSkip l` splits `l` given that the previous character was
inside a whitespace separator run. -/
def splitWsSkip : List Char → List (List Char)
  | [] => [[]]
  | c :: cs => if isJsWs c then splitWsSkip cs else splitWsAux cs [c]

end

/-- `str.split(/\s+/)`. -/
def splitWs (s : String) : List (List Char) :=
  splitWsAux s.toList []

/-- `aiReadyContent.split(/\s+/).length`, the word count stored by
`BlogScraper.scrapePepperCloudBlog` (CLI variant) on the scraped blog,
computed from the formatted prompt `prepareForAI` returns. -/
def scrapedWordCount (d : ScrapedData) : Nat :=
  (splitWs (prepareForAI d)).length

/-- The number of whitespace-delimited tokens of a string: the count of
non-empty pieces of the whitespace split.  This is the spec's
"round-trip" word-count definition, written from the spec's words for
comparison with the counts the code computes. -/
def tokenCount (s : String) : Nat :=
  ((splitWs s).filter (fun p => !p.isEmpty)).length

/-- `str.split(' ')` on a character list. -/
def spaceSplitAux : List Char → List Char → List (List Char)
  | [], acc => [acc.reverse]
  | c :: cs, acc =>
    if c = ' ' then acc.reverse :: spaceSplitAux cs [] else spaceSplitAux cs (c :: acc)

/-- The texts flat-mapped out of the sections by
`BlogScraper.calculateWordCount` (worker variant): paragraph texts and
list items, in order. -/
def sectionTexts (sections : List ContentSection) : List String :=
  sections.flatMap (fun s => s.content.flatMap (fun c =>
    match c with
    | .paragraph t => [t]
    | .list items => items))

/-- `Array.prototype.join(' ')`. -/
def joinSpace : List String → String
  | [] => ""
  | [x] => x
  | x :: xs => x ++ " " ++ joinSpace xs

/-- `BlogScraper.calculateWordCount` (worker variant): join all
paragraph texts and list items with single spaces and count the pieces
of a plain `split(' ')`. -/
def calculateWordCount (sections : List ContentSection) : Nat :=
  (spaceSplitAux (joinSpace (sectionTexts sections)).toList []).length

/-- A sitemap entry as parsed by `BlogScraper.parseXMLSitemap` (worker
variant): a url and a last-modified timestamp.  Timestamps are modelled
as integers (the `Date` parse and comparison are external). -/
structure BlogPost where
  url : String
  lastmod : Int
deriving DecidableEq, Repr

/-- The filter of `BlogScraper.getRecentPosts` (worker variant): keep
the posts whose `lastmod` is strictly newer than the cutoff date. -/
def getRecentPosts (allPosts : List BlogPost) (cutoffDate : Int) : List BlogPost :=
  allPosts.filter (fun post => decide (post.lastmod > cutoffDate))

/-- The post-processing loop of `BlogCrawlerWorker.run`: fold over the
recent posts keeping the running `latestDate` and the processed count,
stopping once five posts have been processed. -/
def runLoop : List BlogPost → Int → Nat → Int
  | [], latestDate, _ => latestDate
  | post :: rest, latestDate, processedCount =>
    let latestDate' := if post.lastmod > latestDate then post.lastmod else latestDate
    let processedCount' := processedCount + 1
    if processedCount' ≥ 5 then latestDate'
    else runLoop rest latestDate' processedCount'

/-- The sequence of watermark writes (`updateLastProcessedDate` calls)
performed by one run of `BlogCrawlerWorker.run`, given the loaded
`lastProcessedDate` and the discovered sitemap posts: the run filters
the recent posts, walks at most five of them, and writes the final
`latestDate` once iff it is strictly newer than the loaded date. -/
def runWatermarkWrites (lastProcessedDate : Int) (allPosts : List BlogPost) : List Int :=
  let recentPosts := getRecentPosts allPosts lastProcessedDate
  if recentPosts.length = 0 then []
  else
    let latestDate := runLoop recentPosts lastProcessedDate 0
    if latestDate > lastProcessedDate then [latestDate] else []

/-- An article card of the PepperCloud category listing page, as read by
`BlogScraper.getRecentBlogUrls` (CLI variant): an optional
`time[datetime]` publication timestamp and an optional card link. -/
structure ArticleCard where
  datetime : Option Int
  href : Option String
deriving DecidableEq, Repr

/-- `BlogScraper.getRecentBlogUrls` (CLI variant): walk the article
cards in page order; a card dated strictly before the cutoff breaks the
loop (`return false`) without being collected; otherwise the card's link
is collected when present.  Cards without a datetime never break the
loop. -/
def getRecentBlogUrls (cutoffDate : Int) : List ArticleCard → List String
  | [] => []
  | card :: rest =>
    match card.datetime with
    | some pubDate =>
      if pubDate < cutoffDate then []
      else
        match card.href with
        | some blogUrl => blogUrl :: getRecentBlogUrls cutoffDate rest
        | none => getRecentBlogUrls cutoffDate rest
    | none =>
      match card.href with
      | some blogUrl => blogUrl :: getRecentBlogUrls cutoffDate rest
      | none => getRecentBlogUrls cutoffDate rest

/-- Modelled from the spec: the HTML-listing recency filter as the
claim states it, stopping at the first dated entry at or before the
cutoff (`lastModified <= cutoff`), for comparison with the code's
`getRecentBlogUrls`, which only stops strictly before the cutoff. -/
def getRecentBlogUrlsSpec (cutoffDate : Int) : List ArticleCard → List String
  | [] => []
  | card :: rest =>
    match card.datetime with
    | some pubDate =>
      if pubDate ≤ cutoffDate then []
      else
        match card.href with
        | some blogUrl => blogUrl :: getRecentBlogUrlsSpec cutoffDate rest
        | none => getRecentBlogUrlsSpec cutoffDate rest
    | none =>
      match card.href with
      | some blogUrl => blogUrl :: getRecentBlogUrlsSpec cutoffDate rest
      | none => getRecentBlogUrlsSpec cutoffDate rest

/-- `[a-zA-Z0-9-_]`, the characters `BlogScraper.createUrlKey` keeps. -/
def isUrlKeyChar (c : Char) : Bool :=
  c.isAlpha || c.isDigit || c == '-' || c == '_'

/-- `BlogScraper.createUrlKey` (CLI variant):
`url.replace(/[^a-zA-Z0-9-_]/g, "_").substring(0, 512)`. -/
def createUrlKey (url : String) : String :=
  ((url.toList.map (fun c => if isUrlKeyChar c then c else '_')).take 512).asString

/-- `BlogScraper.isUrlScraped` (CLI variant).  The optional KV namespace
is modelled as an optional `get` function returning either a thrown
error or an optional stored value; a missing namespace and a thrown
`get` both yield `false`, otherwise the result is `result !== null`. -/
def isUrlScraped (kvGet : Option (String → Except String (Option String)))
    (url : String) : Bool :=
  match kvGet with
  | none => false
  | some get =>
    match get ("scraped:" ++ createUrlKey url) with
    | .error _ => false
    | .ok result => decide (result ≠ none)

/-- `\w`, the characters kept (besides whitespace and hyphens) by
`BlogScraper.generateCleanFilename` (worker variant). -/
def isWordChar (c : Char) : Bool :=
  c.isAlpha || c.isDigit || c == '_'

/-- Replace every maximal run of characters satisfying `p` by the single
character `sep` (the `.replace(/X+/g, sep)` idiom); the flag records
whether the previous character was inside a run. -/
def collapseRuns (p : Char → Bool) (sep : Char) : Bool → List Char → List Char
  | _, [] => []
  | inRun, c :: cs =>
    if p c then
      if inRun then collapseRuns p sep true cs
      else sep :: collapseRuns p sep true cs
    else c :: collapseRuns p sep false cs

/-- Remove a single leading hyphen (half of `.replace(/^-|-$/g, '')`). -/
def stripLeadingHyphen : List Char → List Char
  | '-' :: rest => rest
  | l => l

/-- Remove a single trailing hyphen (the other half of
`.replace(/^-|-$/g, '')`). -/
def stripTrailingHyphen : List Char → List Char
  | [] => []
  | [c] => if c = '-' then [] else [c]
  | c :: rest => c :: stripTrailingHyphen rest

/-- `.replace(/^-|-$/g, '')`: remove one leading and one trailing
hyphen. -/
def stripEdgeHyphens (l : List Char) : List Char :=
  stripTrailingHyphen (stripLeadingHyphen l)

/-- The pipeline of `BlogScraper.generateCleanFilename` (worker variant)
before the final truncation: lowercase, drop characters outside
`[\w\s-]`, collapse whitespace runs to `-`, collapse hyphen runs, strip
edge hyphens. -/
def generateCleanStages (title : String) : List Char :=
  let step1 := (title.toList.map Char.toLower).filter
    (fun c => isWordChar c || isJsWs c || c == '-')
  let step2 := collapseRuns isJsWs '-' false step1
  let step3 := collapseRuns (fun c => c == '-') '-' false step2
  stripEdgeHyphens step3

/-- `BlogScraper.generateCleanFilename` (worker variant): the staged
pipeline followed by `.substring(0, 100)`. -/
def generateCleanFilename (title : String) : String :=
  ((generateCleanStages title).take 100).asString

/-- `BlogGenerator.cleanFilename` (CLI variant): lowercase, drop
characters outside `[a-z0-9\s-]`, trim, collapse whitespace runs to `-`,
collapse hyphen runs, truncate to 100 characters (no edge-hyphen
strip). -/
def cleanFilename (title : String) : String :=
  let step1 := (title.toList.map Char.toLower).filter
    (fun c => c.isLower || c.isDigit || isJsWs c || c == '-')
  let step2 := jsTrimList step1
  let step3 := collapseRuns isJsWs '-' false step2
  let step4 := collapseRuns (fun c => c == '-') '-' false step3
  (step4.take 100).asString

/-- A string that is invariant under trimming and non-empty: the shape
of every text the extraction loops store (they only ever store
`$(...).text().trim()` values checked to be truthy). -/
def trimmedNE (s : String) : Bool :=
  (jsTrim s == s) && !(s == "")

/-- Item well-formedness for the CLI extraction variant: paragraph texts
are trimmed and non-empty; list items are non-empty lists of trimmed,
non-empty strings. -/
def itemWF1 : ContentItem → Bool
  | .paragraph t => trimmedNE t
  | .list items => !items.isEmpty && items.all trimmedNE

/-- Item well-formedness for the worker extraction variant: as for the
CLI variant, except a list may have an empty items sequence. -/
def itemWF5 : ContentItem → Bool
  | .paragraph t => trimmedNE t
  | .list items => items.all trimmedNE

/-- Heading shape invariant: an intro section has no heading, a heading
section has a trimmed non-empty heading. -/
def headingOK (s : ContentSection) : Bool :=
  match s.type, s.heading with
  | .intro, none => true
  | .sectionH _, some h => trimmedNE h
  | _, _ => false

/-- Full section well-formedness for the CLI variant. -/
def sectionWF1 (s : ContentSection) : Bool :=
  headingOK s && !s.content.isEmpty && s.content.all itemWF1

/-- Full section well-formedness for the worker variant. -/
def sectionWF5 (s : ContentSection) : Bool :=
  headingOK s && !s.content.isEmpty && s.content.all itemWF5

/-- The invariant claimed by the specification for every retained
section: a heading section's heading is present and non-empty after
trimming, an intro section has no heading, and content is non-empty. -/
def sectionC8 (s : ContentSection) : Bool :=
  (match s.type, s.heading with
   | .intro, none => true
   | .sectionH _, some h => !(jsTrim h == "")
   | _, _ => false) && !s.content.isEmpty

/-- A section places no `list` item with an empty items sequence. -/
def noEmptyListItem (s : ContentSection) : Bool :=
  s.content.all (fun c =>
    match c with
    | .list items => !items.isEmpty
    | .paragraph _ => true)

/-- Whether a node is a text node. -/
def isTextNode : HNode → Bool
  | .textN _ => true
  | .elem _ _ => false

/-- A plain paragraph element: a `p` whose children are text nodes. -/
def isSimpleParagraph : HNode → Bool
  | .elem t cs => t == "p" && cs.all isTextNode
  | .textN _ => false

/-- A content root that contains only a sequence of paragraph nodes. -/
def rootOnlyParagraphs : HNode → Bool
  | .elem _ cs => cs.all isSimpleParagraph
  | .textN _ => false

/-- The intro paragraph items produced from a paragraphs-only root: one
`paragraph` per child whose trimmed text is non-empty. -/
def introParas : HNode → List ContentItem
  | .elem _ cs => cs.filterMap (fun n =>
      let t := jsTrim (nodeText n)
      if t = "" then none else some (.paragraph t))
  | .textN _ => []

/-- The number of child paragraphs with non-empty trimmed text. -/
def nonEmptyParaCount : HNode → Nat
  | .elem _ cs => (cs.filter (fun n => !(jsTrim (nodeText n) == ""))).length
  | .textN _ => 0

/-- `startsWithSeq needle hay`: `hay` starts with `needle`. -/
def startsWithSeq : List Char → List Char → Bool
  | [], _ => true
  | _ :: _, [] => false
  | a :: as, b :: bs => a == b && startsWithSeq as bs

/-- `containsSeq needle hay`: `needle` occurs contiguously in `hay`. -/
def containsSeq (needle : List Char) : List Char → Bool
  | [] => needle.isEmpty
  | c :: rest => startsWithSeq needle (c :: rest) || containsSeq needle rest

/-- A line is non-empty and its final character is not whitespace. -/
def lineEndsOK (s : String) : Bool :=
  match s.toList.getLast? with
  | some c => !isJsWs c
  | none => false

/-- The list starts with a hyphen. -/
def startsWithHyphen : List Char → Bool
  | '-' :: _ => true
  | _ => false

/-- The list contains two consecutive hyphens. -/
def hasDoubleHyphen : List Char → Bool
  | [] => false
  | [_] => false
  | a :: b :: rest => (a == '-' && b == '-') || hasDoubleHyphen (b :: rest)

/-- The list ends with a hyphen. -/
def endsWithHyphen (l : List Char) : Bool :=
  match l.getLast? with
  | some '-' => true
  | _ => false

/-- Modelled from the claim's words for one heading section of the
prompt: the heading preceded by a blank line (the leading newline that
joins into one), then `- <text>` per paragraph item and `List items:`
followed by `  • <item>` lines per list item. -/
def specHeadingBlock (h : String) (content : List ContentItem) : List String :=
  ("\n" ++ h) :: content.flatMap (fun c =>
    match c with
    | .paragraph t => ["- " ++ t]
    | .list items => "List items:" :: items.map (fun i => "  • " ++ i))

/-- A content root whose only list has a list item trimming to empty but
stray text directly inside the `ul`, so the `ul` node itself passes the
non-empty-text guard. -/
def emptyListRoot : HNode :=
  .elem "section" [.elem "ul" [.textN "x", .elem "li" [.textN " "]]]

/-- A paragraphs-only content root whose single paragraph trims to
empty. -/
def allEmptyParasRoot : HNode :=
  .elem "section" [.elem "p" [.textN "   "]]

/-- A paragraphs-only content root with two non-empty paragraphs and an
empty one. -/
def twoParasRoot : HNode :=
  .elem "section"
    [.elem "p" [.textN "Hello world"], .elem "p" [.textN " "],
     .elem "p" [.textN "Bye"]]

/-- A concrete scraped document with one intro section, used to compare
the worker variant's stored word count with the token count of its
formatted prompt. -/
def introDoc : ScrapedData :=
  { title := "T", description := "D", category := "uncategorized",
    sections := [{ type := .intro, heading := none,
                   content := [.paragraph "hello world"] }],
    url := "u" }

/-- A concrete scraped document with one heading section, used to show
the worker formatter omits heading sections. -/
def headingDoc : ScrapedData :=
  { title := "T", description := "D", category := "c",
    sections := [{ type := .sectionH 2, heading := some "Greetings",
                   content := [.paragraph "hi"] }],
    url := "u" }

/-- A KV `get` that always throws. -/
def failingKvGet : String → Except String (Option String) :=
  fun _ => .error "kv read failure"

/-- A title whose sanitized form is 99 characters, a hyphen, then more:
truncation at 100 cuts immediately after the hyphen. -/
def longHyphenTitle : String :=
  (List.replicate 99 'a' ++ [' ', 'b']).asString

theorem toList_asString (l : List Char) : (l.asString).toList = l := rfl

theorem dropWhile_head_false {p : Char → Bool} :
    ∀ {l : List Char} {c : Char}, (l.dropWhile p).head? = some c → p c = false := by
  intro l
  induction l with
  | nil => intro c h; simp [List.dropWhile] at h
  | cons a as ih =>
    intro c h
    by_cases hp : p a
    · rw [List.dropWhile_cons_of_pos hp] at h
      exact ih h
    · rw [List.dropWhile_cons_of_neg hp] at h
      simp at h
      subst h
      simpa using hp

theorem dropWhile_of_head_false {p : Char → Bool} :
    ∀ {l : List Char}, (∀ c, l.head? = some c → p c = false) → l.dropWhile p = l := by
  intro l h
  cases l with
  | nil => rfl
  | cons a as =>
    have := h a rfl
    rw [List.dropWhile_cons_of_neg (by simp [this])]

theorem dropWhile_getLast_eq {p : Char → Bool} :
    ∀ {l : List Char}, l.dropWhile p ≠ [] → (l.dropWhile p).getLast? = l.getLast? := by
  intro l
  induction l with
  | nil => intro h; simp [List.dropWhile] at h
  | cons a as ih =>
    intro h
    by_cases hp : p a
    · rw [List.dropWhile_cons_of_pos hp] at h ⊢
      rw [ih h]
      cases as with
      | nil => exact absurd (by simp [List.dropWhile]) h
      | cons b bs => rw [List.getLast?_cons_cons]
    · rw [List.dropWhile_cons_of_neg hp]

theorem jsTrimList_getLast_false {l : List Char} {c : Char}
    (h : (jsTrimList l).getLast? = some c) : isJsWs c = false := by
  unfold jsTrimList at h
  rw [List.getLast?_reverse] at h
  exact dropWhile_head_false h

theorem jsTrimList_head_false {l : List Char} {c : Char}
    (h : (jsTrimList l).head? = some c) : isJsWs c = false := by
  unfold jsTrimList at h
  rw [List.head?_reverse] at h
  have hne : (((l.dropWhile isJsWs).reverse).dropWhile isJsWs) ≠ [] := by
    intro hnil
    rw [hnil] at h
    simp at h
  rw [dropWhile_getLast_eq hne, List.getLast?_reverse] at h
  exact dropWhile_head_false h

theorem jsTrimList_idem (l : List Char) : jsTrimList (jsTrimList l) = jsTrimList l := by
  by_cases hnil : jsTrimList l = []
  · rw [hnil]; rfl
  · have h1 : (jsTrimList l).dropWhile isJsWs = jsTrimList l := by
      apply dropWhile_of_head_false
      intro c hc
      exact jsTrimList_head_false hc
    have h2 : ((jsTrimList l).reverse).dropWhile isJsWs = (jsTrimList l).reverse := by
      apply dropWhile_of_head_false
      intro c hc
      rw [List.head?_reverse] at hc
      exact jsTrimList_getLast_false hc
    show ((((jsTrimList l).dropWhile isJsWs).reverse).dropWhile isJsWs).reverse = jsTrimList l
    rw [h1, h2, List.reverse_reverse]

theorem jsTrim_idem (s : String) : jsTrim (jsTrim s) = jsTrim s := by
  unfold jsTrim
  rw [toList_asString, jsTrimList_idem]

theorem mem_jsTrimList {l : List Char} {c : Char} (h : c ∈ jsTrimList l) : c ∈ l := by
  unfold jsTrimList at h
  rw [List.mem_reverse] at h
  have h2 := (List.dropWhile_sublist (l := (l.dropWhile isJsWs).reverse) isJsWs).subset h
  rw [List.mem_reverse] at h2
  exact (List.dropWhile_sublist isJsWs).subset h2

theorem jsTrim_eq_self_getLast {s : String} {c : Char} (ht : jsTrim s = s)
    (h : s.toList.getLast? = some c) : isJsWs c = false := by
  have : jsTrimList s.toList = s.toList := by
    have h2 := congrArg String.toList ht
    unfold jsTrim at h2
    rwa [toList_asString] at h2
  rw [← this] at h
  exact jsTrimList_getLast_false h

theorem listItemsOf_all (n : HNode) : (listItemsOf n).all trimmedNE = true := by
  rw [List.all_eq_true]
  intro i hi
  unfold listItemsOf at hi
  rw [List.mem_filter] at hi
  obtain ⟨hmem, hne⟩ := hi
  rw [List.mem_map] at hmem
  obtain ⟨li, _, rfl⟩ := hmem
  unfold trimmedNE
  rw [Bool.and_eq_true]
  constructor
  · simp [jsTrim_idem]
  · simpa using of_decide_eq_true hne

theorem processNode1_skip {acc : ExtractAcc} {n : HNode}
    (h : jsTrim (nodeText n) = "") : processNode1 acc n = acc := by
  simp [processNode1, h]

theorem processNode1_heading {acc : ExtractAcc} {n : HNode}
    (h1 : ¬jsTrim (nodeText n) = "") (h2 : tagIsHeading (tagOf n) = true) :
    processNode1 acc n =
      { sections := if acc.current.content.length > 0 then acc.sections ++ [acc.current]
                    else acc.sections,
        current := { type := .sectionH (headingLevel (tagOf n)),
                     heading := some (jsTrim (nodeText n)), content := [] } } := by
  simp [processNode1, h1, h2]

theorem processNode1_list {acc : ExtractAcc} {n : HNode}
    (h1 : ¬jsTrim (nodeText n) = "") (h2 : tagIsHeading (tagOf n) = false)
    (h3 : tagOf n = "ul" ∨ tagOf n = "ol") :
    processNode1 acc n =
      if (listItemsOf n).length > 0 then
        { acc with current :=
            { acc.current with content := acc.current.content ++ [.list (listItemsOf n)] } }
      else acc := by
  simp [processNode1, h1, h2, h3]

theorem processNode1_para {acc : ExtractAcc} {n : HNode}
    (h1 : ¬jsTrim (nodeText n) = "") (h2 : tagIsHeading (tagOf n) = false)
    (h3 : ¬(tagOf n = "ul" ∨ tagOf n = "ol")) :
    processNode1 acc n =
      { acc with current :=
          { acc.current with
            content := acc.current.content ++ [.paragraph (jsTrim (nodeText n))] } } := by
  simp [processNode1, h1, h2, h3]

theorem processNode5_skip {acc : ExtractAcc} {n : HNode}
    (h : jsTrim (nodeText n) = "") : processNode5 acc n = acc := by
  simp [processNode5, h]

theorem processNode5_heading {acc : ExtractAcc} {n : HNode}
    (h1 : ¬jsTrim (nodeText n) = "") (h2 : tagIsHeading (tagOf n) = true) :
    processNode5 acc n =
      { sections := if acc.current.content.length > 0 then acc.sections ++ [acc.current]
                    else acc.sections,
        current := { type := .sectionH (headingLevel (tagOf n)),
                     heading := some (jsTrim (nodeText n)), content := [] } } := by
  simp [processNode5, h1, h2]

theorem processNode5_list {acc : ExtractAcc} {n : HNode}
    (h1 : ¬jsTrim (nodeText n) = "") (h2 : tagIsHeading (tagOf n) = false)
    (h3 : tagOf n = "ul" ∨ tagOf n = "ol") :
    processNode5 acc n =
      { acc with current :=
          { acc.current with content := acc.current.content ++ [.list (listItemsOf n)] } } := by
  simp [processNode5, h1, h2, h3]

theorem processNode5_para {acc : ExtractAcc} {n : HNode}
    (h1 : ¬jsTrim (nodeText n) = "") (h2 : tagIsHeading (tagOf n) = false)
    (h3 : ¬(tagOf n = "ul" ∨ tagOf n = "ol")) :
    processNode5 acc n =
      { acc with current :=
          { acc.current with
            content := acc.current.content ++ [.paragraph (jsTrim (nodeText n))] } } := by
  simp [processNode5, h1, h2, h3]

theorem isEmpty_false_of_length_pos {α : Type} {l : List α} (h : 0 < l.length) :
    l.isEmpty = false := by
  cases l with
  | nil => simp at h
  | cons a as => rfl

theorem processNode1_inv {acc : ExtractAcc} {n : HNode}
    (hs : acc.sections.all sectionWF1 = true)
    (hh : headingOK acc.current = true)
    (hc : acc.current.content.all itemWF1 = true) :
    (processNode1 acc n).sections.all sectionWF1 = true ∧
    headingOK (processNode1 acc n).current = true ∧
    (processNode1 acc n).current.content.all itemWF1 = true := by
  by_cases h1 : jsTrim (nodeText n) = ""
  · rw [processNode1_skip h1]
    exact ⟨hs, hh, hc⟩
  by_cases h2 : tagIsHeading (tagOf n)
  · rw [processNode1_heading h1 h2]
    refine ⟨?_, ?_, ?_⟩
    · by_cases hlen : acc.current.content.length > 0
      · rw [if_pos hlen]
        rw [List.all_append]
        simp only [Bool.and_eq_true]
        refine ⟨hs, ?_⟩
        simp only [List.all_cons, List.all_nil, Bool.and_true]
        unfold sectionWF1
        simp only [Bool.and_eq_true]
        refine ⟨⟨hh, ?_⟩, hc⟩
        simp only [Bool.not_eq_true']
        exact isEmpty_false_of_length_pos hlen
      · rw [if_neg hlen]
        exact hs
    · unfold headingOK
      simp only []
      unfold trimmedNE
      rw [Bool.and_eq_true]
      exact ⟨by simp [jsTrim_idem], by simpa using h1⟩
    · simp
  by_cases h3 : tagOf n = "ul" ∨ tagOf n = "ol"
  · rw [processNode1_list h1 (by simpa using h2) h3]
    by_cases h4 : (listItemsOf n).length > 0
    · rw [if_pos h4]
      refine ⟨hs, hh, ?_⟩
      rw [List.all_append]
      simp only [List.all_cons, List.all_nil, Bool.and_true, Bool.and_eq_true]
      refine ⟨hc, ?_⟩
      unfold itemWF1
      rw [Bool.and_eq_true]
      constructor
      · simp only [Bool.not_eq_true']
        exact isEmpty_false_of_length_pos h4
      · exact listItemsOf_all n
    · rw [if_neg h4]
      exact ⟨hs, hh, hc⟩
  · rw [processNode1_para h1 (by simpa using h2) h3]
    refine ⟨hs, hh, ?_⟩
    rw [List.all_append]
    simp only [List.all_cons, List.all_nil, Bool.and_true, Bool.and_eq_true]
    refine ⟨hc, ?_⟩
    unfold itemWF1 trimmedNE
    rw [Bool.and_eq_true]
    exact ⟨by simp [jsTrim_idem], by simpa using h1⟩

theorem processNode5_inv {acc : ExtractAcc} {n : HNode}
    (hs : acc.sections.all sectionWF5 = true)
    (hh : headingOK acc.current = true)
    (hc : acc.current.content.all itemWF5 = true) :
    (processNode5 acc n).sections.all sectionWF5 = true ∧
    headingOK (processNode5 acc n).current = true ∧
    (processNode5 acc n).current.content.all itemWF5 = true := by
  by_cases h1 : jsTrim (nodeText n) = ""
  · rw [processNode5_skip h1]
    exact ⟨hs, hh, hc⟩
  by_cases h2 : tagIsHeading (tagOf n)
  · rw [processNode5_heading h1 h2]
    refine ⟨?_, ?_, ?_⟩
    · by_cases hlen : acc.current.content.length > 0
      · rw [if_pos hlen]
        rw [List.all_append]
        simp only [Bool.and_eq_true]
        refine ⟨hs, ?_⟩
        simp only [List.all_cons, List.all_nil, Bool.and_true]
        unfold sectionWF5
        simp only [Bool.and_eq_true]
        refine ⟨⟨hh, ?_⟩, hc⟩
        simp only [Bool.not_eq_true']
        exact isEmpty_false_of_length_pos hlen
      · rw [if_neg hlen]
        exact hs
    · unfold headingOK
      simp only []
      unfold trimmedNE
      rw [Bool.and_eq_true]
      exact ⟨by simp [jsTrim_idem], by simpa using h1⟩
    · simp
  by_cases h3 : tagOf n = "ul" ∨ tagOf n = "ol"
  · rw [processNode5_list h1 (by simpa using h2) h3]
    refine ⟨hs, hh, ?_⟩
    rw [List.all_append]
    simp only [List.all_cons, List.all_nil, Bool.and_true, Bool.and_eq_true]
    refine ⟨hc, ?_⟩
    unfold itemWF5
    exact listItemsOf_all n
  · rw [processNode5_para h1 (by simpa using h2) h3]
    refine ⟨hs, hh, ?_⟩
    rw [List.all_append]
    simp only [List.all_cons, List.all_nil, Bool.and_true, Bool.and_eq_true]
    refine ⟨hc, ?_⟩
    unfold itemWF5 trimmedNE
    rw [Bool.and_eq_true]
    exact ⟨by simp [jsTrim_idem], by simpa using h1⟩

theorem foldl_process1_inv :
    ∀ (nodes : List HNode) (acc : ExtractAcc),
      acc.sections.all sectionWF1 = true →
      headingOK acc.current = true →
      acc.current.content.all itemWF1 = true →
      (nodes.foldl processNode1 acc).sections.all sectionWF1 = true ∧
      headingOK (nodes.foldl processNode1 acc).current = true ∧
      (nodes.foldl processNode1 acc).current.content.all itemWF1 = true := by
  intro nodes
  induction nodes with
  | nil => intro acc hs hh hc; exact ⟨hs, hh, hc⟩
  | cons n ns ih =>
    intro acc hs hh hc
    rw [List.foldl_cons]
    obtain ⟨hs', hh', hc'⟩ := processNode1_inv (n := n) hs hh hc
    exact ih _ hs' hh' hc'

theorem foldl_process5_inv :
    ∀ (nodes : List HNode) (acc : ExtractAcc),
      acc.sections.all sectionWF5 = true →
      headingOK acc.current = true →
      acc.current.content.all itemWF5 = true →
      (nodes.foldl processNode5 acc).sections.all sectionWF5 = true ∧
      headingOK (nodes.foldl processNode5 acc).current = true ∧
      (nodes.foldl processNode5 acc).current.content.all itemWF5 = true := by
  intro nodes
  induction nodes with
  | nil => intro acc hs hh hc; exact ⟨hs, hh, hc⟩
  | cons n ns ih =>
    intro acc hs hh hc
    rw [List.foldl_cons]
    obtain ⟨hs', hh', hc'⟩ := processNode5_inv (n := n) hs hh hc
    exact ih _ hs' hh' hc'

theorem extractSections_all_WF1 (root : HNode) :
    (extractSections root).all sectionWF1 = true := by
  unfold extractSections
  obtain ⟨hs, hh, hc⟩ := foldl_process1_inv (findDescendants contentTags root)
    { sections := [], current := { type := .intro, content := [] } }
    (by rfl) (by rfl) (by rfl)
  set final := (findDescendants contentTags root).foldl processNode1
    { sections := [], current := { type := .intro, content := [] } } with hfinal
  by_cases hlen : final.current.content.length > 0
  · rw [if_pos hlen, List.all_append]
    simp only [List.all_cons, List.all_nil, Bool.and_true, Bool.and_eq_true]
    refine ⟨hs, ?_⟩
    unfold sectionWF1
    simp only [Bool.and_eq_true]
    refine ⟨⟨hh, ?_⟩, hc⟩
    simp only [Bool.not_eq_true']
    exact isEmpty_false_of_length_pos hlen
  · rw [if_neg hlen]
    exact hs

theorem parseContent_all_WF5 (root : HNode) :
    (parseContent root).all sectionWF5 = true := by
  unfold parseContent
  obtain ⟨hs, hh, hc⟩ := foldl_process5_inv (findDescendants contentTags root)
    { sections := [], current := { type := .intro, content := [] } }
    (by rfl) (by rfl) (by rfl)
  set final := (findDescendants contentTags root).foldl processNode5
    { sections := [], current := { type := .intro, content := [] } } with hfinal
  by_cases hlen : final.current.content.length > 0
  · rw [if_pos hlen, List.all_append]
    simp only [List.all_cons, List.all_nil, Bool.and_true, Bool.and_eq_true]
    refine ⟨hs, ?_⟩
    unfold sectionWF5
    simp only [Bool.and_eq_true]
    refine ⟨⟨hh, ?_⟩, hc⟩
    simp only [Bool.not_eq_true']
    exact isEmpty_false_of_length_pos hlen
  · rw [if_neg hlen]
    exact hs

theorem headingOK_and_content_imp_C8 {s : ContentSection}
    (hh : headingOK s = true) (hne : s.content.isEmpty = false) :
    sectionC8 s = true := by
  unfold sectionC8
  rw [Bool.and_eq_true]
  constructor
  · unfold headingOK at hh
    rcases hty : s.type with _ | k <;> rcases hhd : s.heading with _ | h <;>
      simp_all [trimmedNE]
  · simp [hne]

theorem sectionWF1_imp_C8 {s : ContentSection} (h : sectionWF1 s = true) :
    sectionC8 s = true := by
  unfold sectionWF1 at h
  simp only [Bool.and_eq_true] at h
  exact headingOK_and_content_imp_C8 h.1.1 (by simpa using h.1.2)

theorem sectionWF5_imp_C8 {s : ContentSection} (h : sectionWF5 s = true) :
    sectionC8 s = true := by
  unfold sectionWF5 at h
  simp only [Bool.and_eq_true] at h
  exact headingOK_and_content_imp_C8 h.1.1 (by simpa using h.1.2)

/-- C8: for every content root, every section extracted by either
variant satisfies the section invariant: a heading section's heading is
present and non-empty after trimming, an intro section has no heading,
and no section with empty content appears in the returned sequence. -/
theorem extract_sections_invariant (root : HNode) :
    (extractSections root).all sectionC8 = true ∧
    (parseContent root).all sectionC8 = true := by
  constructor
  · rw [List.all_eq_true]
    intro s hsmem
    have h := extractSections_all_WF1 root
    rw [List.all_eq_true] at h
    exact sectionWF1_imp_C8 (h s hsmem)
  · rw [List.all_eq_true]
    intro s hsmem
    have h := parseContent_all_WF5 root
    rw [List.all_eq_true] at h
    exact sectionWF5_imp_C8 (h s hsmem)

/-- C1: for the scenario content root, both extraction variants return
exactly the two sections `Heading(2,"Intro Heading",[Paragraph("Hello
world")])` and `Heading(2,"Next",[List(["A","B"])])`, in that order,
with the empty `<li>` dropped and no Intro section emitted. -/
theorem extract_scenario_sections :
    extractSections scenarioRoot =
      [ { type := .sectionH 2, heading := some "Intro Heading",
          content := [.paragraph "Hello world"] },
        { type := .sectionH 2, heading := some "Next",
          content := [.list ["A", "B"]] } ] ∧
    parseContent scenarioRoot =
      [ { type := .sectionH 2, heading := some "Intro Heading",
          content := [.paragraph "Hello world"] },
        { type := .sectionH 2, heading := some "Next",
          content := [.list ["A", "B"]] } ] := by
  constructor <;> decide

/-- C2 counterexample: the worker variant's `parseContent` places a
`List` item with an empty items sequence for a `ul` whose direct text is
non-empty while its only `li` trims to empty, refuting the claim that
neither extraction variant ever appends an empty list. -/
theorem parseContent_places_empty_list :
    parseContent emptyListRoot =
      [{ type := .intro, heading := none, content := [.list []] }] ∧
    (parseContent emptyListRoot).all noEmptyListItem = false := by
  constructor <;> decide

/-- C2 (amended): the CLI variant's `extractSections` never places a
`List` item with an empty items sequence in any section; the worker
variant's `parseContent` pushes the collected list unconditionally and
so does not share this guarantee. -/
theorem extractSections_no_empty_list (root : HNode) :
    (extractSections root).all noEmptyListItem = true := by
  rw [List.all_eq_true]
  intro s hsmem
  have h := extractSections_all_WF1 root
  rw [List.all_eq_true] at h
  have hwf := h s hsmem
  unfold sectionWF1 at hwf
  simp only [Bool.and_eq_true] at hwf
  unfold noEmptyListItem
  rw [List.all_eq_true]
  intro c hcmem
  have hall := hwf.2
  rw [List.all_eq_true] at hall
  have hc := hall c hcmem
  cases c with
  | paragraph t => rfl
  | list items =>
    unfold itemWF1 at hc
    rw [Bool.and_eq_true] at hc
    exact hc.1

theorem forestFind_all_text {tags : List String} :
    ∀ {cs : List HNode}, cs.all isTextNode = true → forestFind tags cs = [] := by
  intro cs
  induction cs with
  | nil => intro _; rfl
  | cons n ns ih =>
    intro h
    rw [List.all_cons, Bool.and_eq_true] at h
    obtain ⟨hn, hns⟩ := h
    cases n with
    | elem t cs2 => simp [isTextNode] at hn
    | textN s =>
      show nodeFind tags (.textN s) ++ forestFind tags ns = []
      rw [ih hns]
      rfl

theorem forestFind_simple_paras :
    ∀ {cs : List HNode}, cs.all isSimpleParagraph = true →
      forestFind contentTags cs = cs := by
  intro cs
  induction cs with
  | nil => intro _; rfl
  | cons n ns ih =>
    intro h
    rw [List.all_cons, Bool.and_eq_true] at h
    obtain ⟨hn, hns⟩ := h
    cases n with
    | textN s => simp [isSimpleParagraph] at hn
    | elem t cs2 =>
      unfold isSimpleParagraph at hn
      rw [Bool.and_eq_true, beq_iff_eq] at hn
      obtain ⟨ht, htext⟩ := hn
      subst ht
      show nodeFind contentTags (.elem "p" cs2) ++ forestFind contentTags ns =
        HNode.elem "p" cs2 :: ns
      unfold nodeFind
      rw [forestFind_all_text htext, ih hns]
      rfl

theorem foldl_paras_1 :
    ∀ (nodes : List HNode), nodes.all isSimpleParagraph = true →
    ∀ (S : List ContentSection) (C : List ContentItem),
      nodes.foldl processNode1
        { sections := S, current := { type := .intro, heading := none, content := C } } =
      { sections := S,
        current := { type := .intro, heading := none,
                     content := C ++ nodes.filterMap (fun n =>
                       if jsTrim (nodeText n) = "" then none
                       else some (.paragraph (jsTrim (nodeText n)))) } } := by
  intro nodes
  induction nodes with
  | nil => intro _ S C; simp
  | cons n ns ih =>
    intro h S C
    rw [List.all_cons, Bool.and_eq_true] at h
    obtain ⟨hn, hns⟩ := h
    have htag : tagOf n = "p" := by
      cases n with
      | textN s => simp [isSimpleParagraph] at hn
      | elem t cs2 =>
        unfold isSimpleParagraph at hn
        rw [Bool.and_eq_true, beq_iff_eq] at hn
        rw [hn.1]
        rfl
    rw [List.foldl_cons]
    by_cases he : jsTrim (nodeText n) = ""
    · rw [processNode1_skip he, ih hns, List.filterMap_cons_none (by simp [he])]
    · rw [processNode1_para he (by rw [htag]; rfl) (by rw [htag]; simp)]
      simp only []
      rw [ih hns]
      simp [he]

theorem foldl_paras_5 :
    ∀ (nodes : List HNode), nodes.all isSimpleParagraph = true →
    ∀ (S : List ContentSection) (C : List ContentItem),
      nodes.foldl processNode5
        { sections := S, current := { type := .intro, heading := none, content := C } } =
      { sections := S,
        current := { type := .intro, heading := none,
                     content := C ++ nodes.filterMap (fun n =>
                       if jsTrim (nodeText n) = "" then none
                       else some (.paragraph (jsTrim (nodeText n)))) } } := by
  intro nodes
  induction nodes with
  | nil => intro _ S C; simp
  | cons n ns ih =>
    intro h S C
    rw [List.all_cons, Bool.and_eq_true] at h
    obtain ⟨hn, hns⟩ := h
    have htag : tagOf n = "p" := by
      cases n with
      | textN s => simp [isSimpleParagraph] at hn
      | elem t cs2 =>
        unfold isSimpleParagraph at hn
        rw [Bool.and_eq_true, beq_iff_eq] at hn
        rw [hn.1]
        rfl
    rw [List.foldl_cons]
    by_cases he : jsTrim (nodeText n) = ""
    · rw [processNode5_skip he, ih hns, List.filterMap_cons_none (by simp [he])]
    · rw [processNode5_para he (by rw [htag]; rfl) (by rw [htag]; simp)]
      simp only []
      rw [ih hns]
      simp [he]

theorem filterMap_paras_length :
    ∀ (cs : List HNode),
      (cs.filterMap (fun n =>
        if jsTrim (nodeText n) = "" then none
        else some (ContentItem.paragraph (jsTrim (nodeText n))))).length =
      (cs.filter (fun n => !(jsTrim (nodeText n) == ""))).length := by
  intro cs
  induction cs with
  | nil => rfl
  | cons n ns ih =>
    by_cases he : jsTrim (nodeText n) = ""
    · rw [List.filterMap_cons_none (by simp [he]), List.filter_cons_of_neg (by simp [he])]
      exact ih
    · simp [List.filterMap_cons, List.filter_cons, he, ih]

/-- C5 counterexample: a content root containing only paragraph nodes,
all of which trim to empty, yields zero sections from both extraction
variants — not the claimed "exactly one Intro section". -/
theorem all_empty_paragraphs_no_intro :
    rootOnlyParagraphs allEmptyParasRoot = true ∧
    extractSections allEmptyParasRoot = [] ∧
    parseContent allEmptyParasRoot = [] := by
  refine ⟨by decide, by decide, by decide⟩

/-- C5 (amended): for a content root containing only paragraph nodes, if
at least one paragraph has non-empty trimmed text then both extraction
variants produce exactly one Intro section whose content length equals
the number of non-empty paragraphs (with no non-empty paragraph, no
section is produced at all). -/
theorem paragraphs_only_intro (root : HNode)
    (h : rootOnlyParagraphs root = true) (hpos : 0 < nonEmptyParaCount root) :
    extractSections root =
      [{ type := .intro, heading := none, content := introParas root }] ∧
    parseContent root =
      [{ type := .intro, heading := none, content := introParas root }] ∧
    (introParas root).length = nonEmptyParaCount root := by
  cases root with
  | textN s => simp [rootOnlyParagraphs] at h
  | elem t cs =>
    unfold rootOnlyParagraphs at h
    have hfind : findDescendants contentTags (.elem t cs) = cs :=
      forestFind_simple_paras h
    have hintro : introParas (.elem t cs) =
        cs.filterMap (fun n =>
          if jsTrim (nodeText n) = "" then none
          else some (.paragraph (jsTrim (nodeText n)))) := rfl
    have hcount : nonEmptyParaCount (.elem t cs) =
        (cs.filter (fun n => !(jsTrim (nodeText n) == ""))).length := rfl
    have hlen : (introParas (.elem t cs)).length = nonEmptyParaCount (.elem t cs) := by
      rw [hintro, hcount]
      exact filterMap_paras_length cs
    have hposlen : (introParas (.elem t cs)).length > 0 := by
      rw [hlen]; exact hpos
    refine ⟨?_, ?_, hlen⟩
    · unfold extractSections
      rw [hfind, foldl_paras_1 cs h [] []]
      simp only [List.nil_append, ← hintro]
      rw [if_pos hposlen]
    · unfold parseContent
      rw [hfind, foldl_paras_5 cs h [] []]
      simp only [List.nil_append, ← hintro]
      rw [if_pos hposlen]

/-- C5 witness: the amended theorem applied to a concrete paragraphs-only
root with two non-empty paragraphs and one empty paragraph. -/
theorem paragraphs_only_intro_witness :
    rootOnlyParagraphs twoParasRoot = true ∧
    0 < nonEmptyParaCount twoParasRoot ∧
    (extractSections twoParasRoot =
      [{ type := .intro, heading := none, content := introParas twoParasRoot }] ∧
    parseContent twoParasRoot =
      [{ type := .intro, heading := none, content := introParas twoParasRoot }] ∧
    (introParas twoParasRoot).length = nonEmptyParaCount twoParasRoot) :=
  ⟨by decide, by decide, paragraphs_only_intro twoParasRoot (by decide) (by decide)⟩

/-- C9: if the KV read performed by the dedup check throws, the check
returns `false` ("not previously seen") instead of propagating the
error. -/
theorem isUrlScraped_error_false (get : String → Except String (Option String))
    (url e : String) (h : get ("scraped:" ++ createUrlKey url) = .error e) :
    isUrlScraped (some get) url = false := by
  unfold isUrlScraped
  simp only []
  rw [h]

/-- C9 witness: the theorem applied to a KV `get` that always throws. -/
theorem isUrlScraped_error_false_witness :
    failingKvGet ("scraped:" ++ createUrlKey "https://blog.peppercloud.com/x") =
      .error "kv read failure" ∧
    isUrlScraped (some failingKvGet) "https://blog.peppercloud.com/x" = false :=
  ⟨rfl, isUrlScraped_error_false failingKvGet "https://blog.peppercloud.com/x"
    "kv read failure" rfl⟩

/-- C10 counterexample: for a title sanitizing to 99 characters, a
hyphen, and more, the worker variant's `generateCleanFilename` ends with
a hyphen, because the 100-character truncation is applied after the
edge-hyphen strip. -/
theorem generateCleanFilename_trailing_hyphen :
    endsWithHyphen (generateCleanFilename longHyphenTitle).toList = true := by decide

/-- C7 counterexample: an article card dated exactly at the cutoff is
retained by `getRecentBlogUrls` (the code only breaks strictly before
the cutoff), while the claimed behavior — stopping at the first dated
entry at or before the cutoff — would return nothing. -/
theorem getRecentBlogUrls_boundary :
    getRecentBlogUrls 5 [{ datetime := some 5, href := some "/a" }] = ["/a"] ∧
    getRecentBlogUrlsSpec 5 [{ datetime := some 5, href := some "/a" }] = [] ∧
    getRecentBlogUrls 5 [{ datetime := some 5, href := some "/a" }] ≠
      getRecentBlogUrlsSpec 5 [{ datetime := some 5, href := some "/a" }] := by
  refine ⟨by decide, by decide, by decide⟩

/-- C7 (amended): recency filtering is monotonic in the cutoff for both
variants; the sitemap variant retains exactly the entries with
`lastModified` strictly greater than the cutoff; the HTML-listing
variant collects linked cards until the first card dated strictly before
the cutoff (a card dated exactly at the cutoff is retained, and cards
with no datetime never stop the traversal nor are filtered out). -/
theorem filterRecent_monotone_and_boundary
    (c1 c2 cutoff : Int) (posts : List BlogPost) (cards : List ArticleCard) :
    (c1 ≤ c2 → ∀ p ∈ getRecentPosts posts c2, p ∈ getRecentPosts posts c1) ∧
    (∀ p, p ∈ getRecentPosts posts cutoff ↔ p ∈ posts ∧ cutoff < p.lastmod) ∧
    (c1 ≤ c2 → ∀ u ∈ getRecentBlogUrls c2 cards, u ∈ getRecentBlogUrls c1 cards) ∧
    getRecentBlogUrls cutoff cards =
      (cards.takeWhile (fun card =>
        match card.datetime with
        | some d => decide (cutoff ≤ d)
        | none => true)).filterMap (fun card => card.href) := by
  refine ⟨?_, ?_, ?_, ?_⟩
  · intro h12 p hp
    unfold getRecentPosts at hp ⊢
    rw [List.mem_filter] at hp ⊢
    refine ⟨hp.1, ?_⟩
    have h2 := of_decide_eq_true hp.2
    exact decide_eq_true (by omega)
  · intro p
    unfold getRecentPosts
    rw [List.mem_filter]
    constructor
    · intro ⟨h1, h2⟩
      exact ⟨h1, of_decide_eq_true h2⟩
    · intro ⟨h1, h2⟩
      exact ⟨h1, decide_eq_true h2⟩
  · intro h12
    induction cards with
    | nil => intro u hu; simp [getRecentBlogUrls] at hu
    | cons card rest ih =>
      intro u hu
      rcases hd : card.datetime with _ | d
      · rcases hh : card.href with _ | link
        · simp only [getRecentBlogUrls, hd, hh] at hu ⊢
          exact ih u hu
        · simp only [getRecentBlogUrls, hd, hh] at hu ⊢
          rcases List.mem_cons.mp hu with h | h
          · exact List.mem_cons.mpr (Or.inl h)
          · exact List.mem_cons.mpr (Or.inr (ih u h))
      · by_cases hlt2 : d < c2
        · simp only [getRecentBlogUrls, hd, if_pos hlt2] at hu
          simp at hu
        · have hlt1 : ¬d < c1 := by omega
          rcases hh : card.href with _ | link
          · simp only [getRecentBlogUrls, hd, if_neg hlt2, if_neg hlt1, hh] at hu ⊢
            exact ih u hu
          · simp only [getRecentBlogUrls, hd, if_neg hlt2, if_neg hlt1, hh] at hu ⊢
            rcases List.mem_cons.mp hu with h | h
            · exact List.mem_cons.mpr (Or.inl h)
            · exact List.mem_cons.mpr (Or.inr (ih u h))
  · induction cards with
    | nil => rfl
    | cons card rest ih =>
      rcases hd : card.datetime with _ | d
      · rcases hh : card.href with _ | link <;>
          simp [getRecentBlogUrls, hd, hh, List.takeWhile_cons, List.filterMap_cons, ih]
      · by_cases hlt : d < cutoff
        · have hdec : decide (cutoff ≤ d) = false := by
            simp only [decide_eq_false_iff_not]
            omega
          simp [getRecentBlogUrls, hd, if_pos hlt, List.takeWhile_cons, hdec]
        · have hdec : decide (cutoff ≤ d) = true := by
            simp only [decide_eq_true_eq]
            omega
          rcases hh : card.href with _ | link <;>
            simp [getRecentBlogUrls, hd, if_neg hlt, List.takeWhile_cons, hdec,
              List.filterMap_cons, hh, ih]

/-- C7 witness: the amended theorem instantiated at concrete cutoffs,
a concrete sitemap entry and a concrete article card. -/
theorem filterRecent_monotone_witness :
    (0 : Int) ≤ 1 ∧
    ({ url := "p", lastmod := 2 } : BlogPost) ∈
      getRecentPosts [{ url := "p", lastmod := 2 }] 1 ∧
    "/a" ∈ getRecentBlogUrls 0 [{ datetime := some 2, href := some "/a" }] :=
  ⟨by decide,
   ((filterRecent_monotone_and_boundary 0 1 1 [{ url := "p", lastmod := 2 }]
      []).2.1 { url := "p", lastmod := 2 }).mpr ⟨by decide, by decide⟩,
   (filterRecent_monotone_and_boundary 0 1 1 []
      [{ datetime := some 2, href := some "/a" }]).2.2.1 (by decide) "/a" (by decide)⟩

theorem if_gt_eq_max (a b : Int) : (if b > a then b else a) = max a b := by
  by_cases h : b > a
  · rw [if_pos h]
    exact (max_eq_right h.le).symm
  · rw [if_neg h]
    exact (max_eq_left (by omega)).symm

theorem runLoop_eq_foldl :
    ∀ (posts : List BlogPost) (latest : Int) (k : Nat), k < 5 →
      runLoop posts latest k =
        (posts.take (5 - k)).foldl (fun a p => max a p.lastmod) latest := by
  intro posts
  induction posts with
  | nil => intro latest k _; simp [runLoop]
  | cons p ps ih =>
    intro latest k hk
    have htake : (p :: ps).take (5 - k) = p :: ps.take (5 - (k + 1)) := by
      have h5 : 5 - k = (5 - (k + 1)) + 1 := by omega
      rw [h5]
      rfl
    rw [htake]
    simp only [List.foldl_cons]
    unfold runLoop
    simp only []
    rw [if_gt_eq_max]
    by_cases hk5 : k + 1 ≥ 5
    · rw [if_pos hk5]
      have h0 : 5 - (k + 1) = 0 := by omega
      rw [h0]
      simp
    · rw [if_neg hk5]
      exact ih (max latest p.lastmod) (k + 1) (by omega)

theorem foldl_max_le_self :
    ∀ (l : List BlogPost) (a : Int),
      a ≤ l.foldl (fun x p => max x p.lastmod) a := by
  intro l
  induction l with
  | nil => intro a; simp
  | cons p ps ih =>
    intro a
    simp only [List.foldl_cons]
    exact le_trans (le_max_left a p.lastmod) (ih (max a p.lastmod))

theorem foldl_max_ge_mem :
    ∀ (l : List BlogPost) (a : Int) (p : BlogPost), p ∈ l →
      p.lastmod ≤ l.foldl (fun x q => max x q.lastmod) a := by
  intro l
  induction l with
  | nil => intro a p hp; simp at hp
  | cons q qs ih =>
    intro a p hp
    simp only [List.foldl_cons]
    rcases List.mem_cons.mp hp with h | h
    · subst h
      exact le_trans (le_max_right a p.lastmod) (foldl_max_le_self qs (max a p.lastmod))
    · exact ih (max a q.lastmod) p h

theorem foldl_max_mem_or_seed :
    ∀ (l : List BlogPost) (a : Int),
      l.foldl (fun x q => max x q.lastmod) a = a ∨
      l.foldl (fun x q => max x q.lastmod) a ∈ l.map (fun p => p.lastmod) := by
  intro l
  induction l with
  | nil => intro a; left; rfl
  | cons q qs ih =>
    intro a
    simp only [List.foldl_cons, List.map_cons]
    rcases ih (max a q.lastmod) with h | h
    · rcases max_choice a q.lastmod with hm | hm
      · left; rw [h, hm]
      · right; rw [h, hm]; exact List.mem_cons_self _ _
    · right; exact List.mem_cons.mpr (Or.inr h)

/-- C6: in every run of `BlogCrawlerWorker.run`, the watermark is
written at most once; any written value is strictly greater than the
value loaded at the start of the run, and is the maximum `lastmod` among
the posts actually attempted — the first at most five recent posts — not
the maximum among all discovered posts. -/
theorem run_watermark_once (lastProcessedDate : Int) (allPosts : List BlogPost) :
    (runWatermarkWrites lastProcessedDate allPosts).length ≤ 1 ∧
    ∀ w ∈ runWatermarkWrites lastProcessedDate allPosts,
      lastProcessedDate < w ∧
      w ∈ ((getRecentPosts allPosts lastProcessedDate).take 5).map
        (fun p => p.lastmod) ∧
      ∀ p ∈ (getRecentPosts allPosts lastProcessedDate).take 5, p.lastmod ≤ w := by
  unfold runWatermarkWrites
  simp only []
  by_cases hnil : (getRecentPosts allPosts lastProcessedDate).length = 0
  · rw [if_pos hnil]
    exact ⟨by simp, by simp⟩
  · rw [if_neg hnil]
    have heq := runLoop_eq_foldl (getRecentPosts allPosts lastProcessedDate)
      lastProcessedDate 0 (by omega)
    by_cases hgt : runLoop (getRecentPosts allPosts lastProcessedDate)
        lastProcessedDate 0 > lastProcessedDate
    · rw [if_pos hgt]
      refine ⟨by simp, ?_⟩
      intro w hw
      rw [List.mem_singleton] at hw
      subst hw
      refine ⟨hgt, ?_, ?_⟩
      · rw [heq]
        rcases foldl_max_mem_or_seed
            ((getRecentPosts allPosts lastProcessedDate).take (5 - 0))
            lastProcessedDate with h | h
        · rw [heq, h] at hgt
          omega
        · simpa using h
      · intro p hp
        rw [heq]
        exact foldl_max_ge_mem _ lastProcessedDate p (by simpa using hp)
    · rw [if_neg hgt]
      exact ⟨by simp, by simp⟩

/-- C6 witness: the theorem applied to a run loading watermark 0 that
discovers a single post dated 3; the single write is 3. -/
theorem run_watermark_once_witness :
    (0 : Int) < 3 ∧
    (3 : Int) ∈ ((getRecentPosts [{ url := "a", lastmod := 3 }] 0).take 5).map
      (fun p => p.lastmod) ∧
    ∀ p ∈ (getRecentPosts [{ url := "a", lastmod := 3 }] 0).take 5, p.lastmod ≤ 3 :=
  (run_watermark_once 0 [{ url := "a", lastmod := 3 }]).2 3 (by decide)

theorem headerLines_ne_nil (d : ScrapedData) : headerLines d ≠ [] := by
  unfold headerLines
  have hne : ("Title: " ++ d.title) ≠ "" := by
    intro habs
    have hdata := congrArg String.data habs
    rw [String.data_append] at hdata
    simp at hdata
  rw [List.filter_cons_of_pos (by simpa using hne)]
  simp

theorem flatMap_items_eq :
    ∀ (content : List ContentItem), content.all itemWF1 = true →
      content.flatMap (fun c =>
        match c with
        | .paragraph t => if t = "" then [] else ["- " ++ t]
        | .list items => "List items:" :: items.map (fun i => "  • " ++ i)) =
      content.flatMap (fun c =>
        match c with
        | .paragraph t => ["- " ++ t]
        | .list items => "List items:" :: items.map (fun i => "  • " ++ i)) := by
  intro content
  induction content with
  | nil => intro _; rfl
  | cons c cs ih =>
    intro h
    rw [List.all_cons, Bool.and_eq_true] at h
    obtain ⟨hc, hcs⟩ := h
    simp only [List.flatMap_cons]
    rw [ih hcs]
    cases c with
    | paragraph t =>
      unfold itemWF1 trimmedNE at hc
      rw [Bool.and_eq_true] at hc
      have hne : ¬t = "" := by simpa using hc.2
      simp [hne]
    | list items => rfl

/-- C4 counterexample: for a document whose only section is the heading
section `Greetings`, the worker formatter `prepareForOpenAI` emits only
the header — the heading section is omitted entirely and its heading
text never occurs in the output. -/
theorem prepareForOpenAI_omits_heading :
    prepareForOpenAI headingDoc = "Title: T\nDescription: D\nCategory: c\n\n" ∧
    containsSeq "Greetings".toList (prepareForOpenAI headingDoc).toList = false := by
  refine ⟨by decide, by decide⟩

/-- C4 (amended): for every document and every Heading section in it
(with its extracted shape: a non-empty heading and well-formed items),
the CLI formatter `prepareForAI` emits, in section order, the heading
preceded by a blank line, then `- <text>` per paragraph item and the
literal `List items:` line with one `  • <item>` line per list item;
the worker formatter `prepareForOpenAI` contributes no lines at all for
a Heading section, omitting it from its output. -/
theorem prepareForAI_heading_sections (d : ScrapedData) (s : ContentSection)
    (k : Nat) (h : String)
    (hmem : s ∈ d.sections) (hty : s.type = .sectionH k)
    (hhd : s.heading = some h) (hne : h ≠ "")
    (hwf : s.content.all itemWF1 = true) :
    sectionLines s = specHeadingBlock h s.content ∧
    (∃ pre post, pre ≠ [] ∧
      prepareForAI d = joinLines (pre ++ specHeadingBlock h s.content ++ post)) ∧
    introLines s = [] := by
  have hsec : sectionLines s = specHeadingBlock h s.content := by
    unfold sectionLines specHeadingBlock
    rw [hty, hhd]
    simp only [if_neg hne]
    rw [flatMap_items_eq s.content hwf]
    rfl
  refine ⟨hsec, ?_, ?_⟩
  · obtain ⟨l1, l2, hsplit⟩ := List.append_of_mem hmem
    refine ⟨headerLines d ++ l1.flatMap sectionLines, l2.flatMap sectionLines, ?_, ?_⟩
    · intro habs
      rcases List.append_eq_nil.mp habs with ⟨h1, _⟩
      exact headerLines_ne_nil d h1
    · unfold prepareForAI
      rw [hsplit, List.flatMap_append, List.flatMap_cons, hsec]
      simp [List.append_assoc]
  · unfold introLines
    rw [hty]

/-- C4 witness: the amended theorem applied to the concrete document
with one `Greetings` heading section. -/
theorem prepareForAI_heading_sections_witness :
    ({ type := .sectionH 2, heading := some "Greetings",
       content := [.paragraph "hi"] } : ContentSection) ∈ headingDoc.sections ∧
    (sectionLines { type := .sectionH 2, heading := some "Greetings",
                    content := [.paragraph "hi"] } =
      specHeadingBlock "Greetings" [.paragraph "hi"] ∧
    (∃ pre post, pre ≠ [] ∧
      prepareForAI headingDoc =
        joinLines (pre ++ specHeadingBlock "Greetings" [.paragraph "hi"] ++ post)) ∧
    introLines { type := .sectionH 2, heading := some "Greetings",
                 content := [.paragraph "hi"] } = []) :=
  ⟨by decide,
   prepareForAI_heading_sections headingDoc
     { type := .sectionH 2, heading := some "Greetings",
       content := [.paragraph "hi"] }
     2 "Greetings" (by decide) rfl rfl (by decide) (by decide)⟩

theorem getLast_cons_ne {α : Type} (a : α) {l : List α} (h : l ≠ []) :
    (a :: l).getLast? = l.getLast? := by
  cases l with
  | nil => exact absurd rfl h
  | cons b bs => rw [List.getLast?_cons_cons]

theorem getLast_append_ne {α : Type} (A : List α) {B : List α} (h : B ≠ []) :
    (A ++ B).getLast? = B.getLast? := by
  induction A with
  | nil => rfl
  | cons a A ih =>
    rw [List.cons_append, getLast_cons_ne a ?hne, ih]
    case hne =>
      intro habs
      rcases List.append_eq_nil.mp habs with ⟨_, h2⟩
      exact h h2

theorem getLast_mem {α : Type} : ∀ {l : List α} {a : α}, l.getLast? = some a → a ∈ l := by
  intro l
  induction l with
  | nil => intro a h; simp at h
  | cons b bs ih =>
    intro a h
    cases bs with
    | nil =>
      simp at h
      subst h
      exact List.mem_singleton_self _
    | cons c cs =>
      rw [List.getLast?_cons_cons] at h
      exact List.mem_cons.mpr (Or.inr (ih h))

theorem getLast_none_imp_nil {α : Type} : ∀ {l : List α}, l.getLast? = none → l = [] := by
  intro l
  induction l with
  | nil => intro _; rfl
  | cons b bs ih =>
    intro h
    cases bs with
    | nil => simp at h
    | cons c cs =>
      rw [List.getLast?_cons_cons] at h
      exact absurd (ih h) (by simp)

theorem append_ne_empty_left {p : String} (t : String) (hp : p ≠ "") :
    (p ++ t) ≠ "" := by
  intro habs
  have hdata := congrArg String.data habs
  rw [String.data_append] at hdata
  rcases List.append_eq_nil.mp hdata with ⟨h1, _⟩
  apply hp
  apply String.ext
  simpa using h1

theorem str_toList_ne_nil {t : String} (h : t ≠ "") : t.toList ≠ [] := by
  intro habs
  apply h
  apply String.ext
  simpa using habs

theorem split_pieces_ne :
    ∀ (n : Nat) (l : List Char), l.length ≤ n →
      (∀ c, l.getLast? = some c → isJsWs c = false) →
      (∀ acc, acc ≠ [] → ∀ p ∈ splitWsAux l acc, p ≠ []) ∧
      (l ≠ [] → ∀ p ∈ splitWsSkip l, p ≠ []) := by
  intro n
  induction n with
  | zero =>
    intro l hl _
    have hnil : l = [] := by
      cases l with
      | nil => rfl
      | cons c cs => simp at hl
    subst hnil
    constructor
    · intro acc hacc p hp
      simp only [splitWsAux, List.mem_singleton] at hp
      subst hp
      simpa using hacc
    · intro h; exact absurd rfl h
  | succ n ih =>
    intro l hl hlast
    cases l with
    | nil =>
      constructor
      · intro acc hacc p hp
        simp only [splitWsAux, List.mem_singleton] at hp
        subst hp
        simpa using hacc
      · intro h; exact absurd rfl h
    | cons c cs =>
      have hcs_len : cs.length ≤ n := by simpa using hl
      have hcs_last : cs ≠ [] → ∀ c', cs.getLast? = some c' → isJsWs c' = false := by
        intro hne c' hc'
        apply hlast c'
        rw [getLast_cons_ne c hne]
        exact hc'
      constructor
      · intro acc hacc p hp
        by_cases hw : isJsWs c
        · simp only [splitWsAux, if_pos hw] at hp
          rcases List.mem_cons.mp hp with h | h
          · subst h; simpa using hacc
          · have hcs_ne : cs ≠ [] := by
              intro habs
              subst habs
              have := hlast c rfl
              rw [this] at hw
              exact Bool.false_ne_true hw
            exact (ih cs hcs_len (hcs_last hcs_ne)).2 hcs_ne p h
        · simp only [splitWsAux, if_neg hw] at hp
          by_cases hcs_ne : cs = []
          · subst hcs_ne
            simp only [splitWsAux, List.mem_singleton] at hp
            subst hp
            simp
          · exact (ih cs hcs_len (hcs_last hcs_ne)).1 (c :: acc) (by simp) p hp
      · intro _ p hp
        by_cases hw : isJsWs c
        · simp only [splitWsSkip, if_pos hw] at hp
          have hcs_ne : cs ≠ [] := by
            intro habs
            subst habs
            have := hlast c rfl
            rw [this] at hw
            exact Bool.false_ne_true hw
          exact (ih cs hcs_len (hcs_last hcs_ne)).2 hcs_ne p hp
        · simp only [splitWsSkip, if_neg hw] at hp
          by_cases hcs_ne : cs = []
          · subst hcs_ne
            simp only [splitWsAux, List.mem_singleton] at hp
            subst hp
            simp
          · exact (ih cs hcs_len (hcs_last hcs_ne)).1 [c] (by simp) p hp

theorem lineEndsOK_append (a t : String) (h : lineEndsOK t = true) :
    lineEndsOK (a ++ t) = true := by
  unfold lineEndsOK at h ⊢
  rcases h2 : t.toList.getLast? with _ | c
  · rw [h2] at h
    exact absurd h (by simp)
  · have hne : t.toList ≠ [] := by
      intro habs
      rw [habs] at h2
      simp at h2
    rw [show (a ++ t).toList = a.toList ++ t.toList from String.data_append a t,
      getLast_append_ne a.toList hne, h2]
    rw [h2] at h
    exact h

theorem trimmedNE_lineEndsOK {t : String} (h : trimmedNE t = true) :
    lineEndsOK t = true := by
  unfold trimmedNE at h
  rw [Bool.and_eq_true, beq_iff_eq] at h
  obtain ⟨heq, hne⟩ := h
  have hne' : t ≠ "" := by simpa using hne
  have hlist : t.toList ≠ [] := str_toList_ne_nil hne'
  rcases h2 : t.toList.getLast? with _ | c
  · exact absurd (getLast_none_imp_nil h2) hlist
  · unfold lineEndsOK
    rw [h2]
    simp only [Bool.not_eq_true']
    exact jsTrim_eq_self_getLast heq h2

theorem sectionLines_good {s : ContentSection} (hwf : sectionWF1 s = true) :
    sectionLines s ≠ [] ∧ ∀ line ∈ sectionLines s, lineEndsOK line = true := by
  unfold sectionWF1 at hwf
  simp only [Bool.and_eq_true] at hwf
  obtain ⟨⟨hhead, _⟩, hall⟩ := hwf
  rw [List.all_eq_true] at hall
  rcases hty : s.type with _ | k
  · unfold sectionLines
    rw [hty]
    constructor
    · simp
    · intro line hline
      rcases List.mem_cons.mp hline with h | h
      · subst h; decide
      · rw [List.mem_flatMap] at h
        obtain ⟨c, hcmem, hlc⟩ := h
        have hcWF := hall c hcmem
        cases c with
        | paragraph t =>
          simp only [] at hlc
          by_cases ht : t = ""
          · rw [if_pos ht] at hlc
            simp at hlc
          · rw [if_neg ht] at hlc
            rw [List.mem_singleton] at hlc
            subst hlc
            exact lineEndsOK_append "- " t (trimmedNE_lineEndsOK (by simpa [itemWF1] using hcWF))
        | list items => simp at hlc
  · unfold headingOK at hhead
    rw [hty] at hhead
    rcases hhd : s.heading with _ | h
    · rw [hhd] at hhead
      simp at hhead
    · rw [hhd] at hhead
      have hne : ¬h = "" := by
        unfold trimmedNE at hhead
        rw [Bool.and_eq_true] at hhead
        simpa using hhead.2
      unfold sectionLines
      rw [hty, hhd]
      simp only [if_neg hne]
      constructor
      · simp
      · intro line hline
        rcases List.mem_append.mp hline with hl | hl
        · rw [List.mem_singleton] at hl
          subst hl
          exact lineEndsOK_append "\n" h (trimmedNE_lineEndsOK hhead)
        · rw [List.mem_flatMap] at hl
          obtain ⟨c, hcmem, hlc⟩ := hl
          have hcWF := hall c hcmem
          cases c with
          | paragraph t =>
            simp only [] at hlc
            by_cases ht : t = ""
            · rw [if_pos ht] at hlc
              simp at hlc
            · rw [if_neg ht] at hlc
              rw [List.mem_singleton] at hlc
              subst hlc
              exact lineEndsOK_append "- " t
                (trimmedNE_lineEndsOK (by simpa [itemWF1] using hcWF))
          | list items =>
            rcases List.mem_cons.mp hlc with h2 | h2
            · subst h2; decide
            · rw [List.mem_map] at h2
              obtain ⟨i, himem, rfl⟩ := h2
              have hi : trimmedNE i = true := by
                unfold itemWF1 at hcWF
                rw [Bool.and_eq_true] at hcWF
                have := hcWF.2
                rw [List.all_eq_true] at this
                exact this i himem
              exact lineEndsOK_append "  • " i (trimmedNE_lineEndsOK hi)

theorem joinLines_lineEndsOK :
    ∀ (lines : List String) (l0 : String), lines.getLast? = some l0 →
      lineEndsOK l0 = true → lineEndsOK (joinLines lines) = true := by
  intro lines
  induction lines with
  | nil => intro l0 h; simp at h
  | cons x xs ih =>
    intro l0 hlast hok
    cases xs with
    | nil =>
      simp at hlast
      subst hlast
      simpa [joinLines] using hok
    | cons y ys =>
      rw [getLast_cons_ne x (by simp)] at hlast
      have hJ := ih l0 hlast hok
      have hjoin : joinLines (x :: y :: ys) = (x ++ "\n") ++ joinLines (y :: ys) := rfl
      rw [hjoin]
      exact lineEndsOK_append (x ++ "\n") _ hJ

theorem joinLines_head (x : String) (xs : List String) :
    ∃ r, (joinLines (x :: xs)).toList = x.toList ++ r := by
  cases xs with
  | nil => exact ⟨[], by simp [joinLines]⟩
  | cons y ys =>
    refine ⟨"\n".toList ++ (joinLines (y :: ys)).toList, ?_⟩
    have hjoin : joinLines (x :: y :: ys) = (x ++ "\n") ++ joinLines (y :: ys) := rfl
    rw [hjoin,
      show ((x ++ "\n") ++ joinLines (y :: ys)).toList =
        (x ++ "\n").toList ++ (joinLines (y :: ys)).toList from String.data_append _ _,
      show (x ++ "\n").toList = x.toList ++ "\n".toList from String.data_append _ _,
      List.append_assoc]

theorem headerLines_eq_cons (d : ScrapedData) :
    ∃ rest, headerLines d = ("Title: " ++ d.title) :: rest := by
  unfold headerLines
  rw [List.filter_cons_of_pos
    (by simpa using append_ne_empty_left d.title (p := "Title: ") (by decide))]
  exact ⟨_, rfl⟩

theorem headerLines_getLast (d : ScrapedData) :
    (headerLines d).getLast? = some ("Category: " ++ d.category) := by
  unfold headerLines
  have hT : ¬("Title: " ++ d.title) = "" :=
    append_ne_empty_left d.title (p := "Title: ") (by decide)
  have hC : ¬("Category: " ++ d.category) = "" :=
    append_ne_empty_left d.category (p := "Category: ") (by decide)
  by_cases hd : d.description = ""
  · simp [hd, hT, hC]
  · have hD : ¬("Description: " ++ d.description) = "" :=
      append_ne_empty_left d.description (p := "Description: ") (by decide)
    simp [hd, hT, hC, hD]

theorem prepareForAI_head (d : ScrapedData) :
    ∃ r, (prepareForAI d).toList = 'T' :: r := by
  obtain ⟨rest, hh⟩ := headerLines_eq_cons d
  unfold prepareForAI
  rw [hh, List.cons_append]
  obtain ⟨r, hr⟩ := joinLines_head ("Title: " ++ d.title) (rest ++ d.sections.flatMap sectionLines)
  rw [hr,
    show ("Title: " ++ d.title).toList = "Title: ".toList ++ d.title.toList from
      String.data_append _ _]
  exact ⟨"itle: ".toList ++ d.title.toList ++ r, by simp⟩

theorem prepareForAI_lineEndsOK (d : ScrapedData)
    (hcat : trimmedNE d.category = true) (hsec : d.sections.all sectionWF1 = true) :
    lineEndsOK (prepareForAI d) = true := by
  unfold prepareForAI
  cases hfm : d.sections.flatMap sectionLines with
  | nil =>
    rw [List.append_nil]
    exact joinLines_lineEndsOK _ _ (headerLines_getLast d)
      (lineEndsOK_append "Category: " _ (trimmedNE_lineEndsOK hcat))
  | cons b bs =>
    have hlast : ((headerLines d) ++ b :: bs).getLast? = (b :: bs).getLast? :=
      getLast_append_ne _ (by simp)
    rcases h0 : (b :: bs : List String).getLast? with _ | l0
    · exact absurd (getLast_none_imp_nil h0) (by simp)
    · have hl0mem : l0 ∈ b :: bs := getLast_mem h0
      rw [← hfm, List.mem_flatMap] at hl0mem
      obtain ⟨sctn, hsmem, hlmem⟩ := hl0mem
      rw [List.all_eq_true] at hsec
      have hgood := (sectionLines_good (hsec sctn hsmem)).2 l0 hlmem
      exact joinLines_lineEndsOK _ l0 (by rw [hlast]; exact h0) hgood

theorem tokenCount_eq_splitWs {s : String} {c : Char}
    (hh : s.toList.head? = some c) (hw : isJsWs c = false)
    (hl : lineEndsOK s = true) :
    tokenCount s = (splitWs s).length := by
  have hpieces : ∀ p ∈ splitWs s, p ≠ [] := by
    unfold splitWs
    rcases hlist : s.toList with _ | ⟨c1, cs⟩
    · rw [hlist] at hh
      simp at hh
    · rw [hlist] at hh
      simp only [List.head?_cons, Option.some.injEq] at hh
      subst hh
      intro p hp
      have hcond : ¬(isJsWs c1 = true) := by simp [hw]
      simp only [splitWsAux] at hp
      rw [if_neg hcond] at hp
      have hlastcs : ∀ c', cs.getLast? = some c' → isJsWs c' = false := by
        intro c' hc'
        unfold lineEndsOK at hl
        have hcs_ne : cs ≠ [] := by
          intro habs
          rw [habs] at hc'
          simp at hc'
        rw [hlist, getLast_cons_ne c1 hcs_ne, hc'] at hl
        simpa using hl
      by_cases hcs_nil : cs = []
      · subst hcs_nil
        simp only [splitWsAux, List.mem_singleton] at hp
        subst hp
        simp
      · exact (split_pieces_ne cs.length cs le_rfl hlastcs).1 [c1] (by simp) p hp
  unfold tokenCount
  have hfilter : (splitWs s).filter (fun p => !p.isEmpty) = splitWs s := by
    rw [List.filter_eq_self]
    intro p hp
    have := hpieces p hp
    simpa [List.isEmpty_iff] using this
  rw [hfilter]

/-- C3 counterexample: for a concrete scraped document with one intro
section containing the paragraph `hello world`, the worker variant
stores word count 2 (`calculateWordCount` counts over the section texts)
while its formatted prompt `prepareForOpenAI` has 10 whitespace
-delimited tokens, so the stored word count is not the round-trip token
count in that variant. -/
theorem calculateWordCount_not_roundtrip :
    calculateWordCount introDoc.sections = 2 ∧
    tokenCount (prepareForOpenAI introDoc) = 10 ∧
    calculateWordCount introDoc.sections ≠ tokenCount (prepareForOpenAI introDoc) := by
  refine ⟨by decide, by decide, by decide⟩

/-- C3 (amended): in the CLI variant the stored word count — computed by
splitting the `prepareForAI` prompt on whitespace runs — equals the
number of whitespace-delimited tokens of that same formatted prompt,
for every document scraped by that variant (any extracted sections, any
title and description, a trimmed non-empty category); the worker
variant's stored word count is computed from the section texts instead
and does not equal the token count of its prompt. -/
theorem scrapedWordCount_eq_tokenCount (root : HNode)
    (title description category url : String)
    (hcat1 : jsTrim category = category) (hcat2 : category ≠ "") :
    scrapedWordCount
      { title := title, description := description, category := category,
        sections := extractSections root, url := url } =
    tokenCount (prepareForAI
      { title := title, description := description, category := category,
        sections := extractSections root, url := url }) := by
  have hcat : trimmedNE category = true := by
    unfold trimmedNE
    rw [Bool.and_eq_true, beq_iff_eq]
    exact ⟨hcat1, by simpa using hcat2⟩
  obtain ⟨r, hr⟩ := prepareForAI_head
    { title := title, description := description, category := category,
      sections := extractSections root, url := url }
  have hl := prepareForAI_lineEndsOK
    { title := title, description := description, category := category,
      sections := extractSections root, url := url }
    hcat (extractSections_all_WF1 root)
  have hhead : (prepareForAI
      { title := title, description := description, category := category,
        sections := extractSections root, url := url }).toList.head? = some 'T' := by
    rw [hr]
    rfl
  have htok := tokenCount_eq_splitWs hhead (by decide) hl
  unfold scrapedWordCount
  rw [htok]

/-- C3 witness: the amended theorem applied to the scenario root and a
concrete title, description and category. -/
theorem scrapedWordCount_eq_tokenCount_witness :
    jsTrim "crm" = "crm" ∧ "crm" ≠ "" ∧
    scrapedWordCount
      { title := "T", description := "", category := "crm",
        sections := extractSections scenarioRoot, url := "/u" } =
    tokenCount (prepareForAI
      { title := "T", description := "", category := "crm",
        sections := extractSections scenarioRoot, url := "/u" }) :=
  ⟨by decide, by decide,
   scrapedWordCount_eq_tokenCount scenarioRoot "T" "" "crm" "/u" (by decide) (by decide)⟩

theorem toNat_ofNat_valid (n : Nat) (h : n.isValidChar) : (Char.ofNat n).toNat = n := by
  unfold Char.ofNat
  rw [dif_pos h]
  rfl

theorem toLower_not_upper (c : Char) : (Char.toLower c).isUpper = false := by
  unfold Char.toLower
  by_cases h : c.toNat ≥ 65 ∧ c.toNat ≤ 90
  · rw [if_pos h]
    have hvalid : (c.toNat + 32).isValidChar := by
      left
      omega
    have hval : (Char.ofNat (c.toNat + 32)).toNat = c.toNat + 32 :=
      toNat_ofNat_valid _ hvalid
    show (decide (65 ≤ (Char.ofNat (c.toNat + 32)).toNat) &&
      decide ((Char.ofNat (c.toNat + 32)).toNat ≤ 90)) = false
    rw [hval]
    have hgt : ¬(c.toNat + 32 ≤ 90) := by omega
    simp [hgt]
  · rw [if_neg h]
    show (decide (65 ≤ c.toNat) && decide (c.toNat ≤ 90)) = false
    rcases Decidable.not_and_iff_or_not.mp h with h1 | h1 <;> simp [h1]

theorem mem_collapseRuns {p : Char → Bool} {sep : Char} :
    ∀ {b : Bool} {l : List Char} {x : Char}, x ∈ collapseRuns p sep b l →
      x = sep ∨ (x ∈ l ∧ p x = false) := by
  intro b l
  induction l generalizing b with
  | nil => intro x hx; simp [collapseRuns] at hx
  | cons c cs ih =>
    intro x hx
    by_cases hc : p c
    · by_cases hb : b
      · rw [show collapseRuns p sep b (c :: cs) = collapseRuns p sep true cs by
          simp [collapseRuns, hc, hb]] at hx
        rcases ih hx with h | ⟨h1, h2⟩
        · exact Or.inl h
        · exact Or.inr ⟨List.mem_cons.mpr (Or.inr h1), h2⟩
      · rw [show collapseRuns p sep b (c :: cs) = sep :: collapseRuns p sep true cs by
          simp [collapseRuns, hc, hb]] at hx
        rcases List.mem_cons.mp hx with h | h
        · exact Or.inl h
        · rcases ih h with h2 | ⟨h3, h4⟩
          · exact Or.inl h2
          · exact Or.inr ⟨List.mem_cons.mpr (Or.inr h3), h4⟩
    · rw [show collapseRuns p sep b (c :: cs) = c :: collapseRuns p sep false cs by
        simp [collapseRuns, hc]] at hx
      rcases List.mem_cons.mp hx with h | h
      · subst h
        exact Or.inr ⟨List.mem_cons_self _ _, by simpa using hc⟩
      · rcases ih h with h2 | ⟨h3, h4⟩
        · exact Or.inl h2
        · exact Or.inr ⟨List.mem_cons.mpr (Or.inr h3), h4⟩

theorem collapseHyphens_no_lead :
    ∀ (cs : List Char),
      startsWithHyphen (collapseRuns (fun c => c == '-') '-' true cs) = false := by
  intro cs
  induction cs with
  | nil => rfl
  | cons c cs ih =>
    by_cases hc : (c == '-') = true
    · rw [show collapseRuns (fun c => c == '-') '-' true (c :: cs) =
        collapseRuns (fun c => c == '-') '-' true cs by simp [collapseRuns, hc]]
      exact ih
    · rw [show collapseRuns (fun c => c == '-') '-' true (c :: cs) =
        c :: collapseRuns (fun c => c == '-') '-' false cs by simp [collapseRuns, hc]]
      unfold startsWithHyphen
      have : ¬(c = '-') := by simpa using hc
      split
      · next heq =>
          rw [List.cons.injEq] at heq
          exact absurd heq.1 this
      · rfl

theorem collapseHyphens_no_double :
    ∀ (cs : List Char) (b : Bool),
      hasDoubleHyphen (collapseRuns (fun c => c == '-') '-' b cs) = false := by
  intro cs
  induction cs with
  | nil => intro b; rfl
  | cons c cs ih =>
    intro b
    by_cases hc : (c == '-') = true
    · by_cases hb : b
      · rw [show collapseRuns (fun c => c == '-') '-' b (c :: cs) =
          collapseRuns (fun c => c == '-') '-' true cs by simp [collapseRuns, hc, hb]]
        exact ih true
      · rw [show collapseRuns (fun c => c == '-') '-' b (c :: cs) =
          '-' :: collapseRuns (fun c => c == '-') '-' true cs by simp [collapseRuns, hc, hb]]
        have hlead := collapseHyphens_no_lead cs
        have hdouble := ih true
        rcases hout : collapseRuns (fun c => c == '-') '-' true cs with _ | ⟨d, rest⟩
        · rfl
        · rw [hout] at hlead hdouble
          unfold hasDoubleHyphen
          rw [Bool.or_eq_false_iff]
          constructor
          · rw [Bool.and_eq_false_iff]
            right
            unfold startsWithHyphen at hlead
            by_cases hd : d = '-'
            · rw [hd] at hlead
              simp at hlead
            · simpa using hd
          · exact hdouble
    · rw [show collapseRuns (fun c => c == '-') '-' b (c :: cs) =
        c :: collapseRuns (fun c => c == '-') '-' false cs by simp [collapseRuns, hc]]
      have hdouble := ih false
      rcases hout : collapseRuns (fun c => c == '-') '-' false cs with _ | ⟨d, rest⟩
      · rfl
      · rw [hout] at hdouble
        unfold hasDoubleHyphen
        rw [Bool.or_eq_false_iff]
        exact ⟨by rw [Bool.and_eq_false_iff]; left; simpa using hc, hdouble⟩

theorem stripLeading_hyphen (rest : List Char) :
    stripLeadingHyphen ('-' :: rest) = rest := rfl

theorem stripLeading_other {c : Char} (rest : List Char) (h : ¬c = '-') :
    stripLeadingHyphen (c :: rest) = c :: rest := by
  unfold stripLeadingHyphen
  split
  · next heq =>
      rw [List.cons.injEq] at heq
      exact absurd heq.1 h
  · rfl

theorem mem_stripLeading {l : List Char} {x : Char} (h : x ∈ stripLeadingHyphen l) :
    x ∈ l := by
  cases l with
  | nil => exact absurd h (List.not_mem_nil x)
  | cons c rest =>
    by_cases hc : c = '-'
    · subst hc
      rw [stripLeading_hyphen] at h
      exact List.mem_cons.mpr (Or.inr h)
    · rw [stripLeading_other rest hc] at h
      exact h

theorem stripTrailing_single (c : Char) :
    stripTrailingHyphen [c] = if c = '-' then [] else [c] := rfl

theorem stripTrailing_cons2 (c d : Char) (rest : List Char) :
    stripTrailingHyphen (c :: d :: rest) = c :: stripTrailingHyphen (d :: rest) := rfl

theorem mem_stripTrailing : ∀ {l : List Char} {x : Char},
    x ∈ stripTrailingHyphen l → x ∈ l := by
  intro l
  induction l with
  | nil => intro x h; exact absurd h (List.not_mem_nil x)
  | cons c rest ih =>
    intro x h
    cases rest with
    | nil =>
      rw [stripTrailing_single] at h
      by_cases hc : c = '-'
      · rw [if_pos hc] at h
        simp at h
      · rw [if_neg hc] at h
        exact h
    | cons d rest2 =>
      rw [stripTrailing_cons2] at h
      rcases List.mem_cons.mp h with h1 | h1
      · exact List.mem_cons.mpr (Or.inl h1)
      · exact List.mem_cons.mpr (Or.inr (ih h1))

theorem stripTrailing_head : ∀ (l : List Char),
    stripTrailingHyphen l = [] ∨ (stripTrailingHyphen l).head? = l.head? := by
  intro l
  cases l with
  | nil => exact Or.inl rfl
  | cons c rest =>
    cases rest with
    | nil =>
      rw [stripTrailing_single]
      by_cases hc : c = '-'
      · rw [if_pos hc]
        exact Or.inl rfl
      · rw [if_neg hc]
        exact Or.inr rfl
    | cons d rest2 =>
      rw [stripTrailing_cons2]
      exact Or.inr rfl

theorem stripTrailing_eq_nil : ∀ {l : List Char},
    stripTrailingHyphen l = [] → l = [] ∨ l = ['-'] := by
  intro l h
  cases l with
  | nil => exact Or.inl rfl
  | cons c rest =>
    cases rest with
    | nil =>
      rw [stripTrailing_single] at h
      by_cases hc : c = '-'
      · subst hc
        exact Or.inr rfl
      · rw [if_neg hc] at h
        simp at h
    | cons d rest2 =>
      rw [stripTrailing_cons2] at h
      simp at h

theorem startsWith_cons (c : Char) (l : List Char) :
    startsWithHyphen (c :: l) = (c == '-') := by
  by_cases h : c = '-'
  · subst h
    rfl
  · unfold startsWithHyphen
    split
    · next heq =>
        rw [List.cons.injEq] at heq
        exact absurd heq.1 h
    · simp [h]

theorem endsWith_cons_ne {l : List Char} (c : Char) (h : l ≠ []) :
    endsWithHyphen (c :: l) = endsWithHyphen l := by
  unfold endsWithHyphen
  rw [getLast_cons_ne c h]

theorem endsWith_single (c : Char) : endsWithHyphen [c] = (c == '-') := by
  by_cases h : c = '-'
  · subst h
    rfl
  · unfold endsWithHyphen
    rw [show ([c] : List Char).getLast? = some c from rfl]
    split
    · next heq =>
        rw [Option.some.injEq] at heq
        exact absurd heq h
    · simp [h]

theorem noDouble_tail {c : Char} {l : List Char}
    (h : hasDoubleHyphen (c :: l) = false) : hasDoubleHyphen l = false := by
  cases l with
  | nil => rfl
  | cons d rest =>
    unfold hasDoubleHyphen at h
    rw [Bool.or_eq_false_iff] at h
    exact h.2

theorem noDouble_pair {c d : Char} {l : List Char}
    (h : hasDoubleHyphen (c :: d :: l) = false) : (c == '-' && d == '-') = false := by
  unfold hasDoubleHyphen at h
  rw [Bool.or_eq_false_iff] at h
  exact h.1

theorem noDouble_stripTrailing : ∀ {l : List Char},
    hasDoubleHyphen l = false → hasDoubleHyphen (stripTrailingHyphen l) = false := by
  intro l
  induction l with
  | nil => intro _; rfl
  | cons c rest ih =>
    intro h
    cases rest with
    | nil =>
      rw [stripTrailing_single]
      by_cases hc : c = '-'
      · rw [if_pos hc]; rfl
      · rw [if_neg hc]; rfl
    | cons d rest2 =>
      rw [stripTrailing_cons2]
      have htail := ih (noDouble_tail h)
      rcases hm : stripTrailingHyphen (d :: rest2) with _ | ⟨e, m'⟩
      · rfl
      · have hhead : e = d := by
          rcases stripTrailing_head (d :: rest2) with h2 | h2
          · rw [hm] at h2
            simp at h2
          · rw [hm] at h2
            simpa using h2
        subst hhead
        unfold hasDoubleHyphen
        rw [Bool.or_eq_false_iff]
        constructor
        · exact noDouble_pair h
        · rw [← hm]
          exact htail

theorem endsWith_stripTrailing : ∀ {l : List Char},
    hasDoubleHyphen l = false → endsWithHyphen (stripTrailingHyphen l) = false := by
  intro l
  induction l with
  | nil => intro _; rfl
  | cons c rest ih =>
    intro h
    cases rest with
    | nil =>
      rw [stripTrailing_single]
      by_cases hc : c = '-'
      · rw [if_pos hc]; rfl
      · rw [if_neg hc, endsWith_single]
        simp [hc]
    | cons d rest2 =>
      rw [stripTrailing_cons2]
      have htail := ih (noDouble_tail h)
      rcases hm : stripTrailingHyphen (d :: rest2) with _ | ⟨e, m'⟩
      · rcases stripTrailing_eq_nil hm with h2 | h2
        · simp at h2
        · rw [List.cons.injEq] at h2
          obtain ⟨hd, hrest⟩ := h2
          subst hd
          have hc : ¬(c = '-') := by
            have := noDouble_pair h
            simp at this
            exact this
          rw [endsWith_single]
          simp [hc]
      · rw [endsWith_cons_ne c (by simp), ← hm]
        exact htail

theorem startsWith_stripTrailing {l : List Char}
    (h : startsWithHyphen l = false) :
    startsWithHyphen (stripTrailingHyphen l) = false := by
  rcases stripTrailing_head l with h2 | h2
  · rw [h2]; rfl
  · rcases hm : stripTrailingHyphen l with _ | ⟨e, m'⟩
    · rfl
    · rw [hm] at h2
      cases l with
      | nil => exact List.noConfusion hm
      | cons c rest =>
        simp only [List.head?_cons, Option.some.injEq] at h2
        subst h2
        rw [startsWith_cons]
        rw [startsWith_cons] at h
        exact h

theorem startsWith_stripEdge {l : List Char}
    (h : hasDoubleHyphen l = false) :
    startsWithHyphen (stripEdgeHyphens l) = false := by
  unfold stripEdgeHyphens
  apply startsWith_stripTrailing
  cases l with
  | nil => rfl
  | cons c rest =>
    by_cases hc : c = '-'
    · subst hc
      rw [stripLeading_hyphen]
      cases rest with
      | nil => rfl
      | cons d rest2 =>
        have := noDouble_pair h
        simp at this
        rw [startsWith_cons]
        simp [this]
    · rw [stripLeading_other rest hc, startsWith_cons]
      simp [hc]

theorem noDouble_stripLeading {l : List Char} (h : hasDoubleHyphen l = false) :
    hasDoubleHyphen (stripLeadingHyphen l) = false := by
  cases l with
  | nil => rfl
  | cons c rest =>
    by_cases hc : c = '-'
    · subst hc
      rw [stripLeading_hyphen]
      exact noDouble_tail h
    · rw [stripLeading_other rest hc]
      exact h

theorem startsWith_take (n : Nat) {l : List Char}
    (h : startsWithHyphen l = false) : startsWithHyphen (l.take n) = false := by
  cases l with
  | nil => cases n <;> rfl
  | cons c rest =>
    cases n with
    | zero => rfl
    | succ m =>
      rw [List.take_succ_cons, startsWith_cons]
      rw [startsWith_cons] at h
      exact h

theorem noDouble_take : ∀ (n : Nat) {l : List Char},
    hasDoubleHyphen l = false → hasDoubleHyphen (l.take n) = false := by
  intro n l
  induction l generalizing n with
  | nil => intro _; cases n <;> rfl
  | cons c rest ih =>
    intro h
    cases n with
    | zero => rfl
    | succ m =>
      rw [List.take_succ_cons]
      cases rest with
      | nil =>
        cases m <;> rfl
      | cons d rest2 =>
        cases m with
        | zero => rfl
        | succ m2 =>
          rw [List.take_succ_cons]
          unfold hasDoubleHyphen
          rw [Bool.or_eq_false_iff]
          constructor
          · exact noDouble_pair h
          · rw [← List.take_succ_cons]
            exact ih (m2 + 1) (noDouble_tail h)

theorem cleanStages_char {title : String} {x : Char}
    (h : x ∈ generateCleanStages title) :
    x = '-' ∨ (isJsWs x = false ∧ x.isUpper = false) := by
  have h3 : x ∈ collapseRuns (fun c => c == '-') '-' false
      (collapseRuns isJsWs '-' false
        ((title.toList.map Char.toLower).filter
          (fun c => isWordChar c || isJsWs c || c == '-'))) :=
    mem_stripLeading (mem_stripTrailing h)
  rcases mem_collapseRuns h3 with h4 | ⟨h4, _⟩
  · exact Or.inl h4
  · rcases mem_collapseRuns h4 with h5 | ⟨h5, hws⟩
    · exact Or.inl h5
    · right
      refine ⟨hws, ?_⟩
      obtain ⟨h7, _⟩ := List.mem_filter.mp h5
      rw [List.mem_map] at h7
      obtain ⟨c0, _, rfl⟩ := h7
      exact toLower_not_upper c0

theorem cleanFilename_char {title : String} {x : Char}
    (h : x ∈ (cleanFilename title).toList) :
    x = '-' ∨ (isJsWs x = false ∧ x.isUpper = false) := by
  have h2 : x ∈ collapseRuns (fun c => c == '-') '-' false
      (collapseRuns isJsWs '-' false
        (jsTrimList ((title.toList.map Char.toLower).filter
          (fun c => c.isLower || c.isDigit || isJsWs c || c == '-')))) :=
    List.take_subset 100 _ h
  rcases mem_collapseRuns h2 with h4 | ⟨h4, _⟩
  · exact Or.inl h4
  · rcases mem_collapseRuns h4 with h5 | ⟨h5, hws⟩
    · exact Or.inl h5
    · right
      refine ⟨hws, ?_⟩
      have h6 := mem_jsTrimList h5
      obtain ⟨h7, _⟩ := List.mem_filter.mp h6
      rw [List.mem_map] at h7
      obtain ⟨c0, _, rfl⟩ := h7
      exact toLower_not_upper c0

/-- C10 (amended): both filename sanitizers produce names with no
whitespace, no uppercase letters, and length at most 100; the worker
variant's name additionally never begins with a hyphen and never
contains two consecutive hyphens, and it can end with a hyphen only when
the sanitized name exceeds 100 characters and the truncation cuts right
after one (when no truncation occurs it never ends with a hyphen). -/
theorem cleanFilename_shape (title : String) :
    ((generateCleanFilename title).toList.all (fun ch => !isJsWs ch) = true ∧
     (generateCleanFilename title).toList.all (fun ch => !ch.isUpper) = true ∧
     (generateCleanFilename title).toList.length ≤ 100 ∧
     startsWithHyphen (generateCleanFilename title).toList = false ∧
     hasDoubleHyphen (generateCleanFilename title).toList = false ∧
     (decide ((generateCleanStages title).length ≤ 100) &&
       endsWithHyphen (generateCleanFilename title).toList) = false) ∧
    ((cleanFilename title).toList.all (fun ch => !isJsWs ch) = true ∧
     (cleanFilename title).toList.all (fun ch => !ch.isUpper) = true ∧
     (cleanFilename title).toList.length ≤ 100) := by
  have hW : (generateCleanFilename title).toList = (generateCleanStages title).take 100 := rfl
  have hnd3 : hasDoubleHyphen (collapseRuns (fun c => c == '-') '-' false
      (collapseRuns isJsWs '-' false
        ((title.toList.map Char.toLower).filter
          (fun c => isWordChar c || isJsWs c || c == '-')))) = false :=
    collapseHyphens_no_double _ false
  have hndStages : hasDoubleHyphen (generateCleanStages title) = false :=
    noDouble_stripTrailing (noDouble_stripLeading hnd3)
  have hswStages : startsWithHyphen (generateCleanStages title) = false :=
    startsWith_stripEdge hnd3
  have hewStages : endsWithHyphen (generateCleanStages title) = false :=
    endsWith_stripTrailing (noDouble_stripLeading hnd3)
  refine ⟨⟨?_, ?_, ?_, ?_, ?_, ?_⟩, ⟨?_, ?_, ?_⟩⟩
  · rw [List.all_eq_true]
    intro ch hch
    rw [hW] at hch
    rcases cleanStages_char (List.take_subset 100 _ hch) with h | ⟨h, _⟩
    · subst h; decide
    · simpa using h
  · rw [List.all_eq_true]
    intro ch hch
    rw [hW] at hch
    rcases cleanStages_char (List.take_subset 100 _ hch) with h | ⟨_, h⟩
    · subst h; decide
    · simpa using h
  · rw [hW, List.length_take]
    exact min_le_left _ _
  · rw [hW]
    exact startsWith_take 100 hswStages
  · rw [hW]
    exact noDouble_take 100 hndStages
  · by_cases hL : (generateCleanStages title).length ≤ 100
    · rw [hW, List.take_of_length_le hL, hewStages]
      simp
    · simp [hL]
  · rw [List.all_eq_true]
    intro ch hch
    rcases cleanFilename_char hch with h | ⟨h, _⟩
    · subst h; decide
    · simpa using h
  · rw [List.all_eq_true]
    intro ch hch
    rcases cleanFilename_char hch with h | ⟨_, h⟩
    · subst h; decide
    · simpa using h
  · have hC : (cleanFilename title).toList = (collapseRuns (fun c => c == '-') '-' false
      (collapseRuns isJsWs '-' false
        (jsTrimList ((title.toList.map Char.toLower).filter
          (fun c => c.isLower || c.isDigit || isJsWs c || c == '-'))))).take 100 := rfl
    rw [hC, List.length_take]
    exact min_le_left _ _
